import Mathlib

/-!
Verification of the gotrees repository: a sentinel-based binary search tree
(package `bst`) and a red-black tree layered on top of it (package `rbtree`).

The Go code works on a graph of heap-allocated nodes linked by pointers
(`parent`, `left`, `right`), with one distinguished sentinel node per tree.
We embed this faithfully as a heap: a list of node records addressed by
index, with `Ptr := Option Nat` (`none` is the Go `nil` pointer, `some a`
a pointer to the node stored at index `a`).  The sentinel is the node
allocated by `New`, always at address 0.  Loops in the source become
fuel-indexed recursions; operations whose loops could diverge on a corrupt
heap return `Option`, and `none` is unreachable on well-formed trees.
-/

namespace GoTrees

/-- A Go pointer: `none` is the Go `nil` pointer, `some a` points to heap
address `a`. -/
abbrev Ptr := Option Nat

/-- One heap node of `bst.Node[K, V, M]`: key, value, metadata and the three
links. -/
structure NodeRec (K V M : Type) where
  key : K
  value : V
  parent : Ptr
  left : Ptr
  right : Ptr
  metadata : M
deriving Repr, DecidableEq

instance {K V M : Type} [Inhabited K] [Inhabited V] [Inhabited M] :
    Inhabited (NodeRec K V M) :=
  ⟨{ key := default, value := default, parent := none, left := none,
     right := none, metadata := default }⟩

/-- The state of a `bst.Tree[K, V, M]`: the root pointer, the comparison
function, the heap of allocated nodes, and the pointer to the sentinel
node (the `nil` field of the Go struct). -/
structure Tree (K V M : Type) where
  root : Ptr
  less : K → K → Bool
  heap : List (NodeRec K V M)
  nilP : Ptr

variable {K V M : Type} [Inhabited K] [Inhabited V] [Inhabited M]

/-- Dereference a pointer.  Reading through Go `nil` or a dangling address
yields the (unused under well-formedness) default record. -/
def Tree.nodeAt (t : Tree K V M) (p : Ptr) : NodeRec K V M :=
  match p with
  | some a => t.heap.getD a default
  | none => default

/-- Write through a pointer, transforming the addressed record.  Writing
through Go `nil` or a dangling address leaves the heap unchanged; the
embedded operations never do so on well-formed trees. -/
def Tree.writeAt (t : Tree K V M) (p : Ptr) (f : NodeRec K V M → NodeRec K V M) :
    Tree K V M :=
  match p with
  | some a => { t with heap := t.heap.set a (f (t.heap.getD a default)) }
  | none => t

/-- Assignment `n.left = q`. -/
def Tree.setLeftPtr (t : Tree K V M) (p q : Ptr) : Tree K V M :=
  t.writeAt p (fun r => { r with left := q })

/-- Assignment `n.right = q`. -/
def Tree.setRightPtr (t : Tree K V M) (p q : Ptr) : Tree K V M :=
  t.writeAt p (fun r => { r with parent := r.parent, right := q })

/-- Assignment `n.parent = q`. -/
def Tree.setParentPtr (t : Tree K V M) (p q : Ptr) : Tree K V M :=
  t.writeAt p (fun r => { r with parent := q })

/-- Assignment `n.value = v`. -/
def Tree.setValueAt (t : Tree K V M) (p : Ptr) (v : V) : Tree K V M :=
  t.writeAt p (fun r => { r with value := v })

/-- Assignment `n.key = k`. -/
def Tree.setKeyAt (t : Tree K V M) (p : Ptr) (k : K) : Tree K V M :=
  t.writeAt p (fun r => { r with key := k })

/-- Assignment `n.metadata = m`. -/
def Tree.setMetadataAt (t : Tree K V M) (p : Ptr) (m : M) : Tree K V M :=
  t.writeAt p (fun r => { r with metadata := m })

/-- Method `New` of package bst: allocate the sentinel (`&Node{}`, all
fields zero) at address 0, set `t.root = t.nil` and `t.root.parent = t.nil`. -/
def newTree (less : K → K → Bool) : Tree K V M :=
  { root := some 0
    less := less
    heap := [{ key := default, value := default, parent := some 0,
               left := none, right := none, metadata := default }]
    nilP := some 0 }

/-- Method `IsNil`: pointer comparison `n == t.nil`. -/
def Tree.isNil (t : Tree K V M) (p : Ptr) : Bool :=
  decide (p = t.nilP)

/-- Method `Root`. -/
def Tree.rootP (t : Tree K V M) : Ptr := t.root

/-- Method `Key`. -/
def Tree.keyOf (t : Tree K V M) (p : Ptr) : K := (t.nodeAt p).key

/-- Method `Value`. -/
def Tree.valueOf (t : Tree K V M) (p : Ptr) : V := (t.nodeAt p).value

/-- Method `Metadata`. -/
def Tree.metadataOf (t : Tree K V M) (p : Ptr) : M := (t.nodeAt p).metadata

/-- Method `Left`. -/
def Tree.leftOf (t : Tree K V M) (p : Ptr) : Ptr := (t.nodeAt p).left

/-- Method `Right`. -/
def Tree.rightOf (t : Tree K V M) (p : Ptr) : Ptr := (t.nodeAt p).right

/-- Method `Parent`. -/
def Tree.parentOf (t : Tree K V M) (p : Ptr) : Ptr := (t.nodeAt p).parent

/-- Helper `keyEq`: equality derived from the comparison function. -/
def Tree.keyEq (t : Tree K V M) (a b : K) : Bool :=
  !t.less a b && !t.less b a

/-- Method `IsLeaf`: both children are the sentinel. -/
def Tree.isLeaf (t : Tree K V M) (p : Ptr) : Bool :=
  decide ((t.nodeAt p).left = t.nilP) && decide ((t.nodeAt p).right = t.nilP)

/-- Method `IsUnary`: exactly one child is the sentinel (logical XOR). -/
def Tree.isUnary (t : Tree K V M) (p : Ptr) : Bool :=
  decide ((t.nodeAt p).left = t.nilP) != decide ((t.nodeAt p).right = t.nilP)

/-- Method `transplant`: replace node `toReplace` with node `replacement`.
The branch updates the root pointer or the correct child slot of
`toReplace`'s parent, then `replacement.parent` is set when `replacement`
is not the sentinel, reading `toReplace.parent` again as the source does. -/
def Tree.transplant (t : Tree K V M) (toReplace replacement : Ptr) : Tree K V M :=
  let p := (t.nodeAt toReplace).parent
  let t1 :=
    if p = t.nilP then
      { t with root := replacement }
    else if toReplace = (t.nodeAt p).left then
      t.setLeftPtr p replacement
    else
      t.setRightPtr p replacement
  if replacement ≠ t1.nilP then
    t1.setParentPtr replacement ((t1.nodeAt toReplace).parent)
  else
    t1

/-- Loop of method `Min`: descend `n = n.left` while `n.left != nil` and
`n.left != t.nil`.  Fuel-indexed; `none` means the loop did not finish. -/
def Tree.minLoop (t : Tree K V M) : Nat → Ptr → Option Ptr
  | 0, p =>
    if (t.nodeAt p).left ≠ none ∧ (t.nodeAt p).left ≠ t.nilP then none else some p
  | fuel + 1, p =>
    if (t.nodeAt p).left ≠ none ∧ (t.nodeAt p).left ≠ t.nilP then
      t.minLoop fuel (t.nodeAt p).left
    else
      some p

/-- Method `Min` with the default fuel (enough for any well-formed tree). -/
def Tree.minP (t : Tree K V M) (p : Ptr) : Option Ptr :=
  t.minLoop t.heap.length p

/-- Loop of method `Max`: mirror of `Tree.minLoop`. -/
def Tree.maxLoop (t : Tree K V M) : Nat → Ptr → Option Ptr
  | 0, p =>
    if (t.nodeAt p).right ≠ none ∧ (t.nodeAt p).right ≠ t.nilP then none else some p
  | fuel + 1, p =>
    if (t.nodeAt p).right ≠ none ∧ (t.nodeAt p).right ≠ t.nilP then
      t.maxLoop fuel (t.nodeAt p).right
    else
      some p

/-- Method `Max` with the default fuel. -/
def Tree.maxP (t : Tree K V M) (p : Ptr) : Option Ptr :=
  t.maxLoop t.heap.length p

/-- Climb loop of method `Successor`: ascend while `p != t.nil` and `n` is
not `p`'s left child. -/
def Tree.succClimb (t : Tree K V M) : Nat → Ptr → Ptr → Option Ptr
  | 0, n, p =>
    if p ≠ t.nilP ∧ n ≠ (t.nodeAt p).left then none else some p
  | fuel + 1, n, p =>
    if p ≠ t.nilP ∧ n ≠ (t.nodeAt p).left then
      t.succClimb fuel p (t.nodeAt p).parent
    else
      some p

/-- Method `Successor`: min of the right subtree when present, otherwise
climb parents until the node is a left child. -/
def Tree.successorP (t : Tree K V M) (n : Ptr) : Option Ptr :=
  if (t.nodeAt n).right ≠ t.nilP then
    t.minP (t.nodeAt n).right
  else
    t.succClimb t.heap.length n (t.nodeAt n).parent

/-- Method `SetMetadata`: guarded by `n != nil && !t.IsNil(n)`. -/
def Tree.setMetadataChecked (t : Tree K V M) (p : Ptr) (m : M) : Tree K V M :=
  if p ≠ none ∧ ¬ t.isNil p then t.setMetadataAt p m else t

/-- Result of the descent loop in method `Insert`. -/
inductive InsertFind where
  /-- The walk hit a node whose key matches: update in place. -/
  | found (a : Ptr)
  /-- The walk fell off at a sentinel; `parent` is the trailing pointer. -/
  | leaf (parent : Ptr)
  /-- Fuel ran out (unreachable on well-formed trees). -/
  | fuelOut
deriving Repr, DecidableEq

/-- Descent loop of method `Insert`: walk from the root with a trailing
`parent` pointer until a matching key or the sentinel is reached. -/
def Tree.insertFind (t : Tree K V M) (key : K) :
    Nat → Ptr → Ptr → InsertFind
  | 0, parent, curr =>
    if curr = t.nilP then .leaf parent else .fuelOut
  | fuel + 1, parent, curr =>
    if curr = t.nilP then
      .leaf parent
    else if t.keyEq (t.nodeAt curr).key key then
      .found curr
    else if t.less key (t.nodeAt curr).key then
      t.insertFind key fuel curr (t.nodeAt curr).left
    else
      t.insertFind key fuel curr (t.nodeAt curr).right

/-- Method `Insert` of package bst.  On a key match the value is updated in
place and `(existingNode, true)` is returned; otherwise a new node with
both children the sentinel is allocated, linked below the trailing parent
(or made root when the tree was empty), and `(newNode, false)` is
returned.  `none` only on fuel exhaustion. -/
def Tree.insert (t : Tree K V M) (key : K) (value : V) :
    Option (Tree K V M × Ptr × Bool) :=
  match t.insertFind key (t.heap.length + 1) t.nilP t.root with
  | .found a => some (t.setValueAt a value, a, true)
  | .leaf parent =>
    let newAddr := t.heap.length
    let newNode : NodeRec K V M :=
      { key := key, value := value, parent := parent,
        left := t.nilP, right := t.nilP, metadata := default }
    let t1 : Tree K V M := { t with heap := t.heap ++ [newNode] }
    let t2 :=
      if parent = t.nilP then
        { t1 with root := some newAddr }
      else if t.less key (t.nodeAt parent).key then
        t1.setLeftPtr parent (some newAddr)
      else
        t1.setRightPtr parent (some newAddr)
    some (t2, some newAddr, false)
  | .fuelOut => none

/-- Method `Delete` of package bst.  Returns the replacement node and a
deletion flag; `(t.nil, false)` and an unchanged tree on nil or sentinel
input.  `none` only on fuel exhaustion inside `Min`. -/
def Tree.delete (t : Tree K V M) (n : Ptr) : Option (Tree K V M × Ptr × Bool) :=
  if t.isNil n ∨ n = none then
    some (t, t.nilP, false)
  else if (t.nodeAt n).left = t.nilP then
    let replacement := (t.nodeAt n).right
    let t1 := t.transplant n (t.nodeAt n).right
    let t2 := if replacement ≠ t1.nilP then
        t1.setMetadataChecked replacement (t1.nodeAt n).metadata
      else t1
    some (t2, replacement, true)
  else if (t.nodeAt n).right = t.nilP then
    let replacement := (t.nodeAt n).left
    let t1 := t.transplant n (t.nodeAt n).left
    let t2 := if replacement ≠ t1.nilP then
        t1.setMetadataChecked replacement (t1.nodeAt n).metadata
      else t1
    some (t2, replacement, true)
  else
    match t.minP (t.nodeAt n).right with
    | none => none
    | some successor =>
      let replacement := successor
      let t1 :=
        if (t.nodeAt successor).parent ≠ n then
          let ta := t.transplant successor (t.nodeAt successor).right
          let tb := ta.setRightPtr successor ((ta.nodeAt n).right)
          tb.setParentPtr ((tb.nodeAt successor).right) successor
        else t
      let t2 := t1.transplant n successor
      let t3 := t2.setLeftPtr successor ((t2.nodeAt n).left)
      let t4 := t3.setParentPtr ((t3.nodeAt successor).left) successor
      let t5 := if replacement ≠ t4.nilP then
          t4.setMetadataChecked replacement (t4.nodeAt n).metadata
        else t4
      some (t5, replacement, true)

/-- Method `RotateLeft`: no-op when the node is Go nil, the sentinel, or
has a sentinel right child; otherwise promote the right child with the
source's exact sequence of pointer writes. -/
def Tree.rotateLeft (t : Tree K V M) (node : Ptr) : Tree K V M :=
  if node = none ∨ node = t.nilP ∨ (t.nodeAt node).right = t.nilP then
    t
  else
    let rightSubtree := (t.nodeAt node).right
    let t1 := t.setRightPtr node (t.nodeAt rightSubtree).left
    let t2 :=
      if (t1.nodeAt rightSubtree).left ≠ t1.nilP then
        t1.setParentPtr (t1.nodeAt rightSubtree).left node
      else t1
    let t3 := t2.setParentPtr rightSubtree (t2.nodeAt node).parent
    let t4 :=
      if (t3.nodeAt node).parent = t3.nilP then
        { t3 with root := rightSubtree }
      else if (t3.nodeAt (t3.nodeAt node).parent).left = node then
        t3.setLeftPtr (t3.nodeAt node).parent rightSubtree
      else
        t3.setRightPtr (t3.nodeAt node).parent rightSubtree
    let t5 := t4.setLeftPtr rightSubtree node
    t5.setParentPtr node rightSubtree

/-- Method `RotateRight`: the mirror image of `Tree.rotateLeft`. -/
def Tree.rotateRight (t : Tree K V M) (node : Ptr) : Tree K V M :=
  if node = none ∨ node = t.nilP ∨ (t.nodeAt node).left = t.nilP then
    t
  else
    let leftSubtree := (t.nodeAt node).left
    let t1 := t.setLeftPtr node (t.nodeAt leftSubtree).right
    let t2 :=
      if (t1.nodeAt leftSubtree).right ≠ t1.nilP then
        t1.setParentPtr (t1.nodeAt leftSubtree).right node
      else t1
    let t3 := t2.setParentPtr leftSubtree (t2.nodeAt node).parent
    let t4 :=
      if (t3.nodeAt node).parent = t3.nilP then
        { t3 with root := leftSubtree }
      else if (t3.nodeAt (t3.nodeAt node).parent).left = node then
        t3.setLeftPtr (t3.nodeAt node).parent leftSubtree
      else
        t3.setRightPtr (t3.nodeAt node).parent leftSubtree
    let t5 := t4.setRightPtr leftSubtree node
    t5.setParentPtr node leftSubtree

/-- Method `TraverseInOrder`: recurse left when the left child is neither
Go nil nor the sentinel, visit the node, recurse right likewise.  The
visit function threads a state `σ` (Go closures mutate captured
variables) and returns `false` to stop early.  `none` only on fuel
exhaustion. -/
def Tree.traverseInOrder {σ : Type} (t : Tree K V M)
    (f : σ → Ptr → σ × Bool) : Nat → Ptr → σ → Option (σ × Bool)
  | 0, _, _ => none
  | fuel + 1, n, s =>
    let leftStep : Option (σ × Bool) :=
      if (t.nodeAt n).left ≠ none ∧ (t.nodeAt n).left ≠ t.nilP then
        t.traverseInOrder f fuel (t.nodeAt n).left s
      else
        some (s, true)
    match leftStep with
    | none => none
    | some (s1, c1) =>
      if ¬ c1 then some (s1, false)
      else
        match f s1 n with
        | (s2, c2) =>
          if ¬ c2 then some (s2, false)
          else
            if (t.nodeAt n).right ≠ none ∧ (t.nodeAt n).right ≠ t.nilP then
              t.traverseInOrder f fuel (t.nodeAt n).right s2
            else
              some (s2, true)

/-- Errors produced by the BST validator `IsTreeValid`, one constructor per
`fmt.Errorf` site, carrying the formatted key argument where one exists. -/
inductive BSTErr (K : Type) where
  /-- Message `sentinel nil node parent not sentinel nil node`. -/
  | sentinelParentBad : BSTErr K
  /-- Message `root node parent not sentinel nil node`. -/
  | rootParentBad : BSTErr K
  /-- Message `traversal error: out of order keys at node: %v`. -/
  | outOfOrder (k : K) : BSTErr K
  /-- Message `traversal error: parent/child mismatch for node: %v`. -/
  | parentChildMismatch (k : K) : BSTErr K
deriving Repr, DecidableEq

/-- Mutable state captured by the validation closure in the BST
`IsTreeValid`: the `first` flag, the two key variables and the error slot. -/
structure BstChk (K : Type) where
  first : Bool
  prevKey : K
  currKey : K
  err : Option (BSTErr K)
deriving Repr

/-- The closure passed to `TraverseInOrder` by the BST `IsTreeValid`: shift
the key window, compare consecutive keys after the first node, then check
parent/child reciprocity. -/
def Tree.bstVisit (t : Tree K V M) (s0 : BstChk K) (n : Ptr) : BstChk K × Bool :=
  let s1 : BstChk K :=
    { s0 with prevKey := s0.currKey, currKey := (t.nodeAt n).key }
  let parentCheck : BstChk K → BstChk K × Bool := fun s =>
    let parentNil := (t.nodeAt n).parent = t.nilP
    let leftChild := n = (t.nodeAt (t.nodeAt n).parent).left ∧
      n ≠ (t.nodeAt (t.nodeAt n).parent).right
    let rightChild := n ≠ (t.nodeAt (t.nodeAt n).parent).left ∧
      n = (t.nodeAt (t.nodeAt n).parent).right
    if ¬ parentNil ∧ ¬ (leftChild ∨ rightChild) then
      ({ s with err := some (.parentChildMismatch (t.nodeAt n).key) }, false)
    else
      (s, true)
  if s1.first then
    parentCheck { s1 with first := false }
  else if ¬ t.less s1.prevKey s1.currKey then
    ({ s1 with err := some (.outOfOrder (t.nodeAt n).key) }, false)
  else
    parentCheck s1

/-- Method `IsTreeValid` of package bst: check the sentinel's parent, the
root's parent, then run the in-order validation closure.  The outer
`Option` marks traversal fuel exhaustion (unreachable on real trees);
the inner `Option (BSTErr K)` is the Go `error` result with `none` for
`nil`. -/
def Tree.isTreeValidBST (t : Tree K V M) : Option (Option (BSTErr K)) :=
  if (t.nodeAt t.nilP).parent ≠ t.nilP then
    some (some .sentinelParentBad)
  else if (t.nodeAt t.root).parent ≠ t.nilP then
    some (some .rootParentBad)
  else
    match t.traverseInOrder t.bstVisit (t.heap.length + 1) t.root
        { first := true, prevKey := default, currKey := default, err := none } with
    | none => none
    | some (s, _) => some s.err

/-- Modelled from the spec: the raw structural setter `SetParent` of
package bst.  Its defining source file is not among the provided files;
the spec's §4.2 and §6 list the BST's direct setters (`SetParent`,
`SetLeft`, `SetRight`, `SetKey`, `SetValue`, `SetRoot`) among the raw
structural mutators the red-black layer builds on.  It assigns
`n.parent = p` unconditionally (the red-black delete relies on setting the
parent even of the sentinel, CLRS-style). -/
def Tree.setParentRaw (t : Tree K V M) (n p : Ptr) : Tree K V M :=
  t.setParentPtr n p

/-- Modelled from the spec: the raw structural setter `SetLeft` of package
bst (defining file not among the provided sources).  Assigns `n.left = c`
unconditionally. -/
def Tree.setLeftRaw (t : Tree K V M) (n c : Ptr) : Tree K V M :=
  t.setLeftPtr n c

/-- Modelled from the spec: the raw structural setter `SetRight` of package
bst (defining file not among the provided sources).  Assigns `n.right = c`
unconditionally. -/
def Tree.setRightRaw (t : Tree K V M) (n c : Ptr) : Tree K V M :=
  t.setRightPtr n c

/-- Modelled from the spec: the raw setter `SetKey` of package bst
(defining file not among the provided sources).  Assigns `n.key = k`. -/
def Tree.setKeyRaw (t : Tree K V M) (n : Ptr) (k : K) : Tree K V M :=
  t.setKeyAt n k

/-- Modelled from the spec: the raw setter `SetValue` of package bst
(defining file not among the provided sources).  Assigns `n.value = v`. -/
def Tree.setValueRaw (t : Tree K V M) (n : Ptr) (v : V) : Tree K V M :=
  t.setValueAt n v

/-- Modelled from the spec: the raw setter `SetRoot` of package bst
(defining file not among the provided sources).  Assigns `t.root = p`. -/
def Tree.setRoot (t : Tree K V M) (p : Ptr) : Tree K V M :=
  { t with root := p }

/-- Modelled from the spec: the accessor `Sentinel` of package bst
(defining file not among the provided sources): returns the tree's
sentinel nil node. -/
def Tree.sentinelP (t : Tree K V M) : Ptr := t.nilP

/-- Method `MustSetMetadata`: update metadata with no nil check. -/
def Tree.mustSetMetadata (t : Tree K V M) (n : Ptr) (m : M) : Tree K V M :=
  t.setMetadataAt n m

/-! ## The red-black layer (package rbtree) -/

/-- Type `Color` of package rbtree: a boolean with `Red = false` and
`Black = true`. -/
abbrev Color := Bool

/-- Constant `Red`. -/
def Red : Color := false

/-- Constant `Black`. -/
def Black : Color := true

/-- State of an `rbtree.Tree[K, V]`: the embedded `bst.Tree[K, V, Color]`
plus the node counter `size` (a Go `int`, so it may go negative). -/
structure RBTree (K V : Type) where
  tree : Tree K V Color
  size : Int

variable {K V : Type} [Inhabited K] [Inhabited V]

/-- Method `New` of package rbtree: create the BST and color the sentinel
(the current root) black via `MustSetMetadata`. -/
def rbNew (less : K → K → Bool) : RBTree K V :=
  let t : Tree K V Color := newTree less
  { tree := t.mustSetMetadata t.root Black, size := 0 }

/-- Helper `isBlack`: the node is the sentinel or its metadata is not
`Red`. -/
def Tree.isBlackN (t : Tree K V Color) (n : Ptr) : Bool :=
  t.isNil n || decide ((t.nodeAt n).metadata ≠ Red)

/-- Helper `isRed`: the node is not the sentinel and its metadata is
`Red`. -/
def Tree.isRedN (t : Tree K V Color) (n : Ptr) : Bool :=
  !t.isNil n && decide ((t.nodeAt n).metadata = Red)

/-- Helper `setColor`: set the metadata unless the node is the sentinel
(delegating to the guarded `SetMetadata`). -/
def Tree.setColor (t : Tree K V Color) (n : Ptr) (c : Color) : Tree K V Color :=
  if ¬ t.isNil n then t.setMetadataChecked n c else t

/-- One iteration body plus loop of `insertFixup`, fuel-indexed.  Each read
of `t.Parent(...)` and each recoloring/rotation is performed against the
current tree state, in source order.  `none` marks fuel exhaustion. -/
def rbInsertFixupLoop : Nat → Tree K V Color → Ptr → Option (Tree K V Color)
  | 0, t, z => if t.isRedN (t.nodeAt z).parent then none else some t
  | fuel + 1, t, z =>
    if t.isRedN (t.nodeAt z).parent then
      if (t.nodeAt z).parent = (t.nodeAt (t.nodeAt (t.nodeAt z).parent).parent).left then
        let y := (t.nodeAt (t.nodeAt (t.nodeAt z).parent).parent).right
        if t.isRedN y then
          let t1 := t.setColor (t.nodeAt z).parent Black
          let t2 := t1.setColor y Black
          let t3 := t2.setColor (t2.nodeAt (t2.nodeAt z).parent).parent Red
          rbInsertFixupLoop fuel t3 ((t3.nodeAt (t3.nodeAt z).parent).parent)
        else
          let step : Tree K V Color × Ptr :=
            if z = (t.nodeAt (t.nodeAt z).parent).right then
              let z1 := (t.nodeAt z).parent
              (t.rotateLeft z1, z1)
            else (t, z)
          let t4 := step.1
          let z1 := step.2
          let t5 := t4.setColor (t4.nodeAt z1).parent Black
          let t6 := t5.setColor (t5.nodeAt (t5.nodeAt z1).parent).parent Red
          let t7 := t6.rotateRight (t6.nodeAt (t6.nodeAt z1).parent).parent
          rbInsertFixupLoop fuel t7 z1
      else
        let y := (t.nodeAt (t.nodeAt (t.nodeAt z).parent).parent).left
        if t.isRedN y then
          let t1 := t.setColor (t.nodeAt z).parent Black
          let t2 := t1.setColor y Black
          let t3 := t2.setColor (t2.nodeAt (t2.nodeAt z).parent).parent Red
          rbInsertFixupLoop fuel t3 ((t3.nodeAt (t3.nodeAt z).parent).parent)
        else
          let step : Tree K V Color × Ptr :=
            if z = (t.nodeAt (t.nodeAt z).parent).left then
              let z1 := (t.nodeAt z).parent
              (t.rotateRight z1, z1)
            else (t, z)
          let t4 := step.1
          let z1 := step.2
          let t5 := t4.setColor (t4.nodeAt z1).parent Black
          let t6 := t5.setColor (t5.nodeAt (t5.nodeAt z1).parent).parent Red
          let t7 := t6.rotateLeft (t6.nodeAt (t6.nodeAt z1).parent).parent
          rbInsertFixupLoop fuel t7 z1
    else
      some t

/-- Method `insertFixup`: the fixup loop followed by the unconditional
`setColor(t.Root(), Black)`. -/
def rbInsertFixup (t : Tree K V Color) (z : Ptr) : Option (Tree K V Color) :=
  match rbInsertFixupLoop (t.heap.length + 1) t z with
  | none => none
  | some t1 => some (t1.setColor t1.root Black)

/-- Method `Insert` of package rbtree: delegate to the BST insert; when the
returned flag is false, return at once with `(n, false)`; otherwise color
the node red, run `insertFixup`, increment `size` and return `(n, true)`. -/
def RBTree.insertRB (rt : RBTree K V) (key : K) (value : V) :
    Option (RBTree K V × Ptr × Bool) :=
  match rt.tree.insert key value with
  | none => none
  | some (t1, n, updated) =>
    if ¬ updated then
      some ({ rt with tree := t1 }, n, false)
    else
      let t2 := t1.setColor n Red
      match rbInsertFixup t2 n with
      | none => none
      | some t3 => some ({ tree := t3, size := rt.size + 1 }, n, true)

/-- Method `resetSentinel`: null the sentinel's children, point its parent
at itself, and recolor it black through the guarded `setColor` (which, on
the sentinel, is a no-op). -/
def rbResetSentinel (t : Tree K V Color) : Tree K V Color :=
  let t1 := t.setLeftRaw t.sentinelP none
  let t2 := t1.setRightRaw t1.sentinelP none
  let t3 := t2.setParentRaw t2.sentinelP t2.sentinelP
  t3.setColor t3.sentinelP Black

/-- Loop of `deleteFixup`, fuel-indexed: while `x` is not the root and is
black, apply the four sibling cases (left/right mirrored), reading every
pointer from the current tree state in source order. -/
def rbDeleteFixupLoop : Nat → Tree K V Color → Ptr → Option (Tree K V Color × Ptr)
  | 0, t, x =>
    if x ≠ t.root ∧ t.isBlackN x then none else some (t, x)
  | fuel + 1, t, x =>
    if x ≠ t.root ∧ t.isBlackN x then
      if x = (t.nodeAt (t.nodeAt x).parent).left then
        let w0 := (t.nodeAt (t.nodeAt x).parent).right
        let step1 : Tree K V Color × Ptr :=
          if t.isRedN w0 then
            let ta := t.setColor w0 Black
            let tb := ta.setColor (ta.nodeAt x).parent Red
            let tc := tb.rotateLeft (tb.nodeAt x).parent
            (tc, (tc.nodeAt (tc.nodeAt x).parent).right)
          else (t, w0)
        let ta := step1.1
        let w := step1.2
        if ta.isBlackN (ta.nodeAt w).left ∧ ta.isBlackN (ta.nodeAt w).right then
          let tb := ta.setColor w Red
          rbDeleteFixupLoop fuel tb ((tb.nodeAt x).parent)
        else
          let step2 : Tree K V Color × Ptr :=
            if ta.isBlackN (ta.nodeAt w).right then
              let tb := ta.setColor (ta.nodeAt w).left Black
              let tc := tb.setColor w Red
              let td := tc.rotateRight w
              (td, (td.nodeAt (td.nodeAt x).parent).right)
            else (ta, w)
          let tb := step2.1
          let w1 := step2.2
          let tc := tb.setColor w1 ((tb.nodeAt (tb.nodeAt x).parent).metadata)
          let td := tc.setColor (tc.nodeAt x).parent Black
          let te := td.setColor (td.nodeAt w1).right Black
          let tf := te.rotateLeft (te.nodeAt x).parent
          rbDeleteFixupLoop fuel tf tf.root
      else
        let w0 := (t.nodeAt (t.nodeAt x).parent).left
        let step1 : Tree K V Color × Ptr :=
          if t.isRedN w0 then
            let ta := t.setColor w0 Black
            let tb := ta.setColor (ta.nodeAt x).parent Red
            let tc := tb.rotateRight (tb.nodeAt x).parent
            (tc, (tc.nodeAt (tc.nodeAt x).parent).left)
          else (t, w0)
        let ta := step1.1
        let w := step1.2
        if ta.isBlackN (ta.nodeAt w).right ∧ ta.isBlackN (ta.nodeAt w).left then
          let tb := ta.setColor w Red
          rbDeleteFixupLoop fuel tb ((tb.nodeAt x).parent)
        else
          let step2 : Tree K V Color × Ptr :=
            if ta.isBlackN (ta.nodeAt w).left then
              let tb := ta.setColor (ta.nodeAt w).right Black
              let tc := tb.setColor w Red
              let td := tc.rotateLeft w
              (td, (td.nodeAt (td.nodeAt x).parent).left)
            else (ta, w)
          let tb := step2.1
          let w1 := step2.2
          let tc := tb.setColor w1 ((tb.nodeAt (tb.nodeAt x).parent).metadata)
          let td := tc.setColor (tc.nodeAt x).parent Black
          let te := td.setColor (td.nodeAt w1).left Black
          let tf := te.rotateRight (te.nodeAt x).parent
          rbDeleteFixupLoop fuel tf tf.root
    else
      some (t, x)

/-- Method `deleteFixup`: the loop followed by the unconditional
`setColor(x, Black)`. -/
def rbDeleteFixup (t : Tree K V Color) (x : Ptr) : Option (Tree K V Color) :=
  match rbDeleteFixupLoop (t.heap.length + 1) t x with
  | none => none
  | some (t1, x1) => some (t1.setColor x1 Black)

/-- Method `Delete` of package rbtree: no-op returning `false` on nil or
sentinel input; otherwise splice out `z` or its successor `y`, hang `x` in
`y`'s place via the raw setters, copy `y`'s key/value into `z` when they
differ, run `deleteFixup` when `y` was black, reset the sentinel, and
decrement `size`. -/
def RBTree.deleteRB (rt : RBTree K V) (z : Ptr) : Option (RBTree K V × Bool) :=
  let t := rt.tree
  if t.isNil z ∨ z = none then
    some (rt, false)
  else
    let yOpt : Option Ptr :=
      if t.isNil (t.nodeAt z).left ∨ t.isNil (t.nodeAt z).right then some z
      else t.successorP z
    match yOpt with
    | none => none
    | some y =>
      let x := if ¬ t.isNil (t.nodeAt y).left then (t.nodeAt y).left
               else (t.nodeAt y).right
      let t1 := t.setParentRaw x ((t.nodeAt y).parent)
      let t2 :=
        if t1.isNil (t1.nodeAt y).parent then
          t1.setRoot x
        else if y = (t1.nodeAt (t1.nodeAt y).parent).left then
          t1.setLeftRaw ((t1.nodeAt y).parent) x
        else
          t1.setRightRaw ((t1.nodeAt y).parent) x
      let t3 :=
        if y ≠ z then
          let ta := t2.setKeyRaw z ((t2.nodeAt y).key)
          ta.setValueRaw z ((ta.nodeAt y).value)
        else t2
      let t4Opt : Option (Tree K V Color) :=
        if t3.isBlackN y then rbDeleteFixup t3 x else some t3
      match t4Opt with
      | none => none
      | some t4 =>
        let t5 := rbResetSentinel t4
        some ({ tree := t5, size := rt.size - 1 }, true)

/-- Method `Size` of package rbtree. -/
def RBTree.sizeOf (rt : RBTree K V) : Int := rt.size

/-- Errors produced by the red-black `IsTreeValid`, one constructor per
`fmt.Errorf` site, carrying the formatted key argument where one exists. -/
inductive RBErr (K : Type) where
  /-- Wrapper `underlying BST is invalid: %v`. -/
  | underlying (e : BSTErr K) : RBErr K
  /-- Message `root node is not black`. -/
  | rootNotBlack : RBErr K
  /-- Message `sentinel nil node is not black`. -/
  | sentinelNotBlack : RBErr K
  /-- Message `node %v is red and has red left child`. -/
  | redRedLeft (k : K) : RBErr K
  /-- Message `node %v is red and has red right child`. -/
  | redRedRight (k : K) : RBErr K
  /-- Message `node %v has black count mismatch`; the key printed is
  `t.Key(n)` for the loop variable `n` at the point of the error. -/
  | blackCountMismatch (k : K) : RBErr K
deriving Repr, DecidableEq

/-- Mutable state captured by the red-black validation closure:
`firstLeaf`, `blackCount`, the error slot, and a divergence marker for
executions whose black-count climb would not terminate in Go. -/
structure RBChk (K : Type) where
  firstLeaf : Bool
  blackCount : Nat
  err : Option (RBErr K)
  diverged : Bool
deriving Repr

/-- Climb loop inside the red-black validation closure: starting from the
visited node, walk `n = t.Parent(n)` to the sentinel counting black
nodes, and return the final count together with the final value of the
loop variable `n`. -/
def Tree.blackClimb (t : Tree K V Color) : Nat → Ptr → Nat → Option (Nat × Ptr)
  | 0, n, bc => if ¬ t.isNil n then none else some (bc, n)
  | fuel + 1, n, bc =>
    if ¬ t.isNil n then
      t.blackClimb fuel (t.nodeAt n).parent (if t.isBlackN n then bc + 1 else bc)
    else
      some (bc, n)

/-- The closure passed to `TraverseInOrder` by the red-black
`IsTreeValid`: red-red checks, then, at leaf or unary nodes, the
black-count comparison.  The mismatch error reports `t.Key(n)` where `n`
is the loop variable left over from the climb. -/
def Tree.rbVisit (t : Tree K V Color) (s : RBChk K) (n : Ptr) : RBChk K × Bool :=
  if t.isRedN n && t.isRedN (t.nodeAt n).left then
    ({ s with err := some (.redRedLeft (t.nodeAt n).key) }, false)
  else if t.isRedN n && t.isRedN (t.nodeAt n).right then
    ({ s with err := some (.redRedRight (t.nodeAt n).key) }, false)
  else if ¬ (t.isLeaf n || t.isUnary n) then
    (s, true)
  else
    match t.blackClimb (t.heap.length + 1) n 0 with
    | none => ({ s with diverged := true }, false)
    | some (bc, nEnd) =>
      if s.firstLeaf then
        ({ s with blackCount := bc, firstLeaf := false }, true)
      else if bc ≠ s.blackCount then
        ({ s with err := some (.blackCountMismatch (t.nodeAt nEnd).key) }, false)
      else
        (s, true)

/-- Method `IsTreeValid` of package rbtree: delegate to the BST validator,
check the root and sentinel colors, then run the red-black closure over
an in-order traversal.  The outer `Option` marks executions that would
not terminate in Go. -/
def RBTree.isTreeValidRB (rt : RBTree K V) : Option (Option (RBErr K)) :=
  let t := rt.tree
  match t.isTreeValidBST with
  | none => none
  | some (some e) => some (some (.underlying e))
  | some none =>
    if ¬ t.isBlackN t.root then
      some (some .rootNotBlack)
    else if (t.nodeAt (t.nodeAt t.root).parent).metadata ≠ Black then
      some (some .sentinelNotBlack)
    else
      match t.traverseInOrder t.rbVisit (t.heap.length + 1) t.root
          { firstLeaf := true, blackCount := 0, err := none, diverged := false } with
      | none => none
      | some (s, _) => if s.diverged then none else some s.err

/-! ## Concrete instantiation

Keys and values are instantiated at `Int` with the natural strict order,
matching the repository's tests (`func(a, b int) bool { return a < b }`).
The Go zero values of `int` and `Color` coincide with the `Inhabited`
defaults of `Int` (0) and `Bool` (`false`, that is `Red`). -/

/-- The integer comparison function used throughout the repository's tests. -/
def lessInt : Int → Int → Bool := fun a b => decide (a < b)

/-!  ### Claims C1, C3, C4: the insert/fixup wiring of the red-black layer

`rbtree.Insert` tests the flag returned by the BST insert with
`if !updated { return n, false }`.  The BST insert returns `true` when an
existing key's value was updated and `false` when a new node was
attached, so the red-black layer returns without any fixup (and without
touching `size`) exactly when a new node was attached, and runs the
recolor/fixup/`size++` path exactly when a value was merely updated. -/

/-- Claim C1 (code bug): after the single-operation sequence
`Insert(1, 0)` on a freshly created red-black tree, `IsTreeValid()` does
not return nil: it reports `root node is not black`, because the new node
was left with the zero-value color `Red` and no fixup ran. -/
theorem c1_single_insert_invalidates_tree :
    ((rbNew lessInt : RBTree Int Int).insertRB 1 0).map
        (fun r => r.1.isTreeValidRB) =
      some (some (some (RBErr.rootNotBlack))) := by
  decide

/-- Claim C3 (code bug): inserting a fresh key makes `Insert` return
immediately with `false`, leaving the attached node `Red` (its zero
value) with no fixup run — the root of the one-node tree stays red —
while re-inserting the existing key takes the fixup path: the root is
recolored black and `size` is incremented. -/
theorem c3_fixup_runs_on_update_not_insert :
    (((rbNew lessInt : RBTree Int Int).insertRB 1 10).map
        (fun r => (r.2.2, r.1.tree.metadataOf r.1.tree.root, r.1.sizeOf)) =
      some (false, Red, 0))
    ∧
    ((((rbNew lessInt : RBTree Int Int).insertRB 1 10).bind
        (fun r => r.1.insertRB 1 20)).map
        (fun r => (r.2.2, r.1.tree.metadataOf r.1.tree.root, r.1.sizeOf)) =
      some (true, Black, 1)) := by
  constructor
  · decide
  · decide

/-- Claim C4 (code bug): after `n = 1` insert of a fresh key and `k = 0`
deletes, `Size()` returns 0, not `n - k = 1`: the counter is not
incremented on a structural insert (it is incremented on the
value-update path instead, as the second conjunct of
`c3_fixup_runs_on_update_not_insert` shows). -/
theorem c4_size_zero_after_one_insert :
    ((rbNew lessInt : RBTree Int Int).insertRB 1 0).map (fun r => r.1.sizeOf) =
      some 0 := by
  decide

/-! ## Basic facts about heap reads and writes -/

section HeapLemmas

/-- Address validity: `some a` with `a` inside the allocated heap. -/
def Tree.validAddr (t : Tree K V M) (p : Ptr) : Bool :=
  match p with
  | some a => decide (a < t.heap.length)
  | none => false

@[simp] theorem Tree.writeAt_none (t : Tree K V M) (f : NodeRec K V M → NodeRec K V M) :
    t.writeAt none f = t := rfl

@[simp] theorem Tree.nilP_writeAt (t : Tree K V M) (p : Ptr) (f : NodeRec K V M → NodeRec K V M) :
    (t.writeAt p f).nilP = t.nilP := by
  cases p <;> rfl

@[simp] theorem Tree.root_writeAt (t : Tree K V M) (p : Ptr) (f : NodeRec K V M → NodeRec K V M) :
    (t.writeAt p f).root = t.root := by
  cases p <;> rfl

@[simp] theorem Tree.less_writeAt (t : Tree K V M) (p : Ptr) (f : NodeRec K V M → NodeRec K V M) :
    (t.writeAt p f).less = t.less := by
  cases p <;> rfl

@[simp] theorem Tree.length_writeAt (t : Tree K V M) (p : Ptr) (f : NodeRec K V M → NodeRec K V M) :
    (t.writeAt p f).heap.length = t.heap.length := by
  cases p <;> simp [Tree.writeAt]

theorem Tree.nodeAt_writeAt_self (t : Tree K V M) (a : Nat) (f : NodeRec K V M → NodeRec K V M)
    (ha : a < t.heap.length) :
    (t.writeAt (some a) f).nodeAt (some a) = f (t.nodeAt (some a)) := by
  simp [Tree.writeAt, Tree.nodeAt, List.getD, List.getElem?_set_self, ha]

theorem Tree.nodeAt_writeAt_ne (t : Tree K V M) (p q : Ptr) (f : NodeRec K V M → NodeRec K V M)
    (h : q ≠ p) :
    (t.writeAt p f).nodeAt q = t.nodeAt q := by
  cases p with
  | none => rfl
  | some a =>
    cases q with
    | none => rfl
    | some b =>
      have hab : b ≠ a := by intro hba; exact h (by rw [hba])
      simp [Tree.writeAt, Tree.nodeAt, List.getD, List.getElem?_set_ne (Ne.symm hab)]

theorem Tree.writeAt_oob (t : Tree K V M) (a : Nat) (f : NodeRec K V M → NodeRec K V M)
    (h : ¬ a < t.heap.length) : t.writeAt (some a) f = t := by
  simp only [Tree.writeAt]
  rw [List.set_eq_of_length_le (by omega)]

theorem Tree.nodeAt_writeAt_valid (t : Tree K V M) (p : Ptr)
    (f : NodeRec K V M → NodeRec K V M) (h : t.validAddr p = true) :
    (t.writeAt p f).nodeAt p = f (t.nodeAt p) := by
  cases p with
  | none => simp [Tree.validAddr] at h
  | some a =>
    have ha : a < t.heap.length := by simpa [Tree.validAddr] using h
    exact t.nodeAt_writeAt_self a f ha

theorem Tree.nodeAt_writeAt_frame (t : Tree K V M) (p q : Ptr)
    (f : NodeRec K V M → NodeRec K V M)
    (hl : ∀ r, (f r).left = r.left) (hr : ∀ r, (f r).right = r.right) :
    ((t.writeAt p f).nodeAt q).left = (t.nodeAt q).left ∧
    ((t.writeAt p f).nodeAt q).right = (t.nodeAt q).right := by
  by_cases hq : q = p
  · subst hq
    cases q with
    | none => exact ⟨rfl, rfl⟩
    | some a =>
      by_cases ha : a < t.heap.length
      · rw [t.nodeAt_writeAt_self a f ha, hl, hr]; exact ⟨rfl, rfl⟩
      · rw [t.writeAt_oob a f ha]; exact ⟨rfl, rfl⟩
  · rw [t.nodeAt_writeAt_ne p q f hq]; exact ⟨rfl, rfl⟩

@[simp] theorem Tree.nilP_transplant (t : Tree K V M) (a b : Ptr) :
    (t.transplant a b).nilP = t.nilP := by
  unfold Tree.transplant
  simp only [Tree.setLeftPtr, Tree.setRightPtr, Tree.setParentPtr]
  repeat' split
  all_goals simp

end HeapLemmas

/-! ## Claim C7: Delete is a no-op on nil or sentinel input -/

/-- Claim C7: deleting the Go nil pointer or the sentinel changes nothing.
The BST `Delete` returns `(t.nil, false)` with the tree untouched, and
the red-black `Delete` returns `false` with the tree and size untouched;
absence is reported only through the boolean result (both embeddings are
total functions into tuples, so no panic or error path exists). -/
theorem c7_delete_noop_on_nil_or_sentinel :
    (∀ {K V M : Type} [Inhabited K] [Inhabited V] [Inhabited M]
       (t : Tree K V M) (n : Ptr), (n = none ∨ n = t.nilP) →
         t.delete n = some (t, t.nilP, false)) ∧
    (∀ {K V : Type} [Inhabited K] [Inhabited V]
       (rt : RBTree K V) (n : Ptr), (n = none ∨ n = rt.tree.nilP) →
         rt.deleteRB n = some (rt, false)) := by
  constructor
  · intro K V M _ _ _ t n h
    have hc : (t.isNil n ∨ n = none) := by
      rcases h with h | h
      · exact Or.inr h
      · exact Or.inl (by simp [Tree.isNil, h])
    simp only [Tree.delete]
    rw [if_pos hc]
  · intro K V _ _ rt n h
    have hc : (rt.tree.isNil n ∨ n = none) := by
      rcases h with h | h
      · exact Or.inr h
      · exact Or.inl (by simp [Tree.isNil, h])
    simp only [RBTree.deleteRB]
    rw [if_pos hc]

/-- Witness for C7 at a concrete input: deleting the Go nil pointer from a
fresh red-black tree leaves it untouched and returns `false`. -/
theorem c7_delete_noop_witness :
    (rbNew lessInt : RBTree Int Int).deleteRB none =
      some (rbNew lessInt, false) :=
  c7_delete_noop_on_nil_or_sentinel.2 (rbNew lessInt) none (Or.inl rfl)

/-! ## Claim C9: deleting a leaf returns the sentinel with `true` -/

/-- Claim C9: for every tree and every leaf node `n` (both children the
sentinel), `Delete(n)` succeeds, and the replacement it returns is the
sentinel itself — the same node the nil/sentinel-input failure case
returns — so the two outcomes differ only in the boolean. -/
theorem c9_delete_leaf_returns_sentinel
    {K V M : Type} [Inhabited K] [Inhabited V] [Inhabited M]
    (t : Tree K V M) (n : Ptr)
    (hn : n ≠ t.nilP) (hnn : n ≠ none)
    (hl : (t.nodeAt n).left = t.nilP) (hr : (t.nodeAt n).right = t.nilP) :
    t.delete n = some (t.transplant n t.nilP, t.nilP, true) ∧
    t.delete t.nilP = some (t, t.nilP, false) ∧
    t.isNil t.nilP = true := by
  refine ⟨?_, ?_, by simp [Tree.isNil]⟩
  · have hc : ¬ (t.isNil n ∨ n = none) := by
      rintro (h | h)
      · exact hn (by simpa [Tree.isNil] using h)
      · exact hnn h
    simp only [Tree.delete]
    rw [if_neg hc, if_pos hl, hr]
    have : ¬ ((t.nilP : Ptr) ≠ (t.transplant n t.nilP).nilP) := by simp
    rw [if_neg this]
  · exact (c7_delete_noop_on_nil_or_sentinel.1 t t.nilP (Or.inr rfl))

/-- A one-node BST over `Int` keys: the sentinel at address 0 and a single
leaf node with key 5 at address 1 as the root. -/
def bstLeafEx : Tree Int Int Unit :=
  { root := some 1
    less := lessInt
    heap := [{ key := 0, value := 0, parent := some 0, left := none,
               right := none, metadata := () },
             { key := 5, value := 50, parent := some 0, left := some 0,
               right := some 0, metadata := () }]
    nilP := some 0 }

/-- Witness for C9 at a concrete input: deleting the leaf node of
`bstLeafEx` returns the sentinel and `true`. -/
theorem c9_delete_leaf_witness :
    bstLeafEx.delete (some 1) =
      some (bstLeafEx.transplant (some 1) bstLeafEx.nilP, bstLeafEx.nilP, true) ∧
    bstLeafEx.delete bstLeafEx.nilP = some (bstLeafEx, bstLeafEx.nilP, false) ∧
    bstLeafEx.isNil bstLeafEx.nilP = true :=
  c9_delete_leaf_returns_sentinel bstLeafEx (some 1)
    (by decide) (by decide) (by decide) (by decide)

/-! ## Claim C10: TraverseInOrder applies the visit function unconditionally -/

/-- Helper for C10: at a node whose two child pointers are each Go nil or
the sentinel, one step of `TraverseInOrder` is exactly one application of
the visit function. -/
theorem traverse_step_applies_f {σ : Type} (t : Tree K V M) (n : Ptr)
    (f : σ → Ptr → σ × Bool) (s : σ) (fuel : Nat)
    (hl : (t.nodeAt n).left = none ∨ (t.nodeAt n).left = t.nilP)
    (hr : (t.nodeAt n).right = none ∨ (t.nodeAt n).right = t.nilP) :
    t.traverseInOrder f (fuel + 1) n s = some (f s n) := by
  have hlc : ¬ ((t.nodeAt n).left ≠ none ∧ (t.nodeAt n).left ≠ t.nilP) := by
    rcases hl with h | h <;> simp [h]
  have hrc : ¬ ((t.nodeAt n).right ≠ none ∧ (t.nodeAt n).right ≠ t.nilP) := by
    rcases hr with h | h <;> simp [h]
  simp only [Tree.traverseInOrder, if_neg hlc, if_neg hrc]
  rcases hfn : f s n with ⟨s2, c2⟩
  cases c2 <;> simp

/-- Claim C10: `TraverseInOrder(n, f)` applies `f` to the very node it is
given, with no nil or sentinel guard on `n` itself — at any node whose
children are Go nil or the sentinel (the sentinel included) the result is
exactly `f`'s output — and on a freshly created (empty) tree,
`TraverseInOrder(Root(), f)` calls `f` exactly once, with the sentinel as
argument, and returns `f`'s result. -/
theorem c10_traverse_visits_sentinel :
    (∀ {σ K V M : Type} [Inhabited K] [Inhabited V] [Inhabited M]
       (t : Tree K V M) (n : Ptr) (f : σ → Ptr → σ × Bool) (s : σ) (fuel : Nat),
       ((t.nodeAt n).left = none ∨ (t.nodeAt n).left = t.nilP) →
       ((t.nodeAt n).right = none ∨ (t.nodeAt n).right = t.nilP) →
       t.traverseInOrder f (fuel + 1) n s = some (f s n)) ∧
    (∀ {σ K V M : Type} [Inhabited K] [Inhabited V] [Inhabited M]
       (less : K → K → Bool) (f : σ → Ptr → σ × Bool) (s : σ) (fuel : Nat),
       (newTree less : Tree K V M).traverseInOrder f (fuel + 1)
           (newTree less : Tree K V M).root s =
         some (f s (newTree less : Tree K V M).nilP)) := by
  refine ⟨fun t n f s fuel hl hr => traverse_step_applies_f t n f s fuel hl hr, ?_⟩
  intro σ K V M _ _ _ less f s fuel
  exact traverse_step_applies_f (newTree less) (some 0) f s fuel
    (Or.inl rfl) (Or.inl rfl)

/-- Witness for C10 at a concrete input: a counting visit function on the
empty tree over `Int` keys is applied exactly once, to the sentinel. -/
theorem c10_traverse_witness :
    (newTree lessInt : Tree Int Int Unit).traverseInOrder
        (fun (s : Nat) (_ : Ptr) => (s + 1, true)) 1
        (newTree lessInt : Tree Int Int Unit).root 0 =
      some (1, true) :=
  c10_traverse_visits_sentinel.2 lessInt (fun s _ => (s + 1, true)) 0 0

/-! ## Claim C6: Transplant is pure pointer surgery -/

/-- The first phase of `transplant`: the branch that redirects the root
pointer or the matching child slot of `toReplace`'s parent. -/
def Tree.transplantBranch (t : Tree K V M) (oldP newP : Ptr) : Tree K V M :=
  if (t.nodeAt oldP).parent = t.nilP then
    { t with root := newP }
  else if oldP = (t.nodeAt ((t.nodeAt oldP).parent)).left then
    t.setLeftPtr ((t.nodeAt oldP).parent) newP
  else
    t.setRightPtr ((t.nodeAt oldP).parent) newP

theorem Tree.validAddr_congr (t' t : Tree K V M)
    (h : t'.heap.length = t.heap.length) (p : Ptr) :
    t'.validAddr p = t.validAddr p := by
  cases p <;> simp [Tree.validAddr, h]

theorem Tree.transplantBranch_nilP (t : Tree K V M) (oldP newP : Ptr) :
    (t.transplantBranch oldP newP).nilP = t.nilP := by
  unfold Tree.transplantBranch Tree.setLeftPtr Tree.setRightPtr
  repeat' split
  all_goals simp

theorem Tree.transplantBranch_length (t : Tree K V M) (oldP newP : Ptr) :
    (t.transplantBranch oldP newP).heap.length = t.heap.length := by
  unfold Tree.transplantBranch Tree.setLeftPtr Tree.setRightPtr
  repeat' split
  all_goals simp

theorem Tree.transplantBranch_root (t : Tree K V M) (oldP newP : Ptr) :
    (t.transplantBranch oldP newP).root =
      (if (t.nodeAt oldP).parent = t.nilP then newP else t.root) := by
  unfold Tree.transplantBranch Tree.setLeftPtr Tree.setRightPtr
  repeat' split
  all_goals simp

theorem Tree.transplantBranch_nodeAt_ne (t : Tree K V M) (oldP newP : Ptr)
    (q : Ptr)
    (hq : q ≠ (t.nodeAt oldP).parent ∨ (t.nodeAt oldP).parent = t.nilP) :
    (t.transplantBranch oldP newP).nodeAt q = t.nodeAt q := by
  unfold Tree.transplantBranch Tree.setLeftPtr Tree.setRightPtr
  by_cases h1 : (t.nodeAt oldP).parent = t.nilP
  · rw [if_pos h1]; rfl
  · rcases hq with hq | hq
    · rw [if_neg h1]
      split
      · exact t.nodeAt_writeAt_ne _ q _ hq
      · exact t.nodeAt_writeAt_ne _ q _ hq
    · exact absurd hq h1

theorem Tree.transplantBranch_nodeAt_parent (t : Tree K V M) (oldP newP : Ptr)
    (h : (t.nodeAt oldP).parent ≠ t.nilP)
    (hval : t.validAddr ((t.nodeAt oldP).parent) = true) :
    (t.transplantBranch oldP newP).nodeAt ((t.nodeAt oldP).parent) =
      (if oldP = (t.nodeAt ((t.nodeAt oldP).parent)).left then
        { t.nodeAt ((t.nodeAt oldP).parent) with left := newP }
       else
        { t.nodeAt ((t.nodeAt oldP).parent) with right := newP }) := by
  unfold Tree.transplantBranch Tree.setLeftPtr Tree.setRightPtr
  rw [if_neg h]
  split
  · rw [t.nodeAt_writeAt_valid _ _ hval]
  · rw [t.nodeAt_writeAt_valid _ _ hval]

/-- The source's `transplant`, rewritten with the parent of `toReplace`
read before the branch (legitimate because the branch never modifies
`toReplace` when `toReplace` is not its own parent). -/
theorem Tree.transplant_reform (t : Tree K V M) (oldP newP : Ptr)
    (hpo : (t.nodeAt oldP).parent ≠ oldP) :
    t.transplant oldP newP =
      (if newP ≠ t.nilP then
        (t.transplantBranch oldP newP).setParentPtr newP ((t.nodeAt oldP).parent)
       else
        t.transplantBranch oldP newP) := by
  have hob : oldP ≠ (t.nodeAt oldP).parent := fun h => hpo h.symm
  by_cases h1 : (t.nodeAt oldP).parent = t.nilP
  · simp only [Tree.transplant, Tree.transplantBranch, if_pos h1]
    rfl
  · simp only [Tree.transplant, Tree.transplantBranch, if_neg h1]
    by_cases h2 : oldP = (t.nodeAt ((t.nodeAt oldP).parent)).left
    · simp only [if_pos h2, Tree.setLeftPtr]
      rw [t.nodeAt_writeAt_ne _ oldP _ hob]
      simp only [Tree.nilP_writeAt]
    · simp only [if_neg h2, Tree.setRightPtr]
      rw [t.nodeAt_writeAt_ne _ oldP _ hob]
      simp only [Tree.nilP_writeAt]

/-- Claim C6: `Transplant(old, new)` makes `new` occupy `old`'s position
(the root pointer when `old`'s parent is the sentinel, otherwise the
matching child slot of `old.parent`, the other slot untouched), sets
`new.parent = old.parent` exactly when `new` is not the sentinel (the
sentinel's parent is untouched otherwise), and leaves the `left` and
`right` pointers of both `old` and `new` unmodified.  The distinctness
hypotheses say that `old` is not its own parent and that `new` is not
`old`'s parent; both hold for any pair of nodes of a well-formed tree. -/
theorem c6_transplant_spec
    {K V M : Type} [Inhabited K] [Inhabited V] [Inhabited M]
    (t : Tree K V M) (oldP newP : Ptr)
    (hpo : (t.nodeAt oldP).parent ≠ oldP)
    (hpn : newP ≠ t.nilP → (t.nodeAt oldP).parent ≠ newP)
    (hnv : newP ≠ t.nilP → t.validAddr newP = true)
    (hpv : (t.nodeAt oldP).parent ≠ t.nilP →
      t.validAddr ((t.nodeAt oldP).parent) = true) :
    ((t.nodeAt oldP).parent = t.nilP → (t.transplant oldP newP).root = newP) ∧
    ((t.nodeAt oldP).parent ≠ t.nilP → (t.transplant oldP newP).root = t.root) ∧
    ((t.nodeAt oldP).parent ≠ t.nilP →
      oldP = (t.nodeAt ((t.nodeAt oldP).parent)).left →
      ((t.transplant oldP newP).nodeAt ((t.nodeAt oldP).parent)).left = newP ∧
      ((t.transplant oldP newP).nodeAt ((t.nodeAt oldP).parent)).right =
        (t.nodeAt ((t.nodeAt oldP).parent)).right) ∧
    ((t.nodeAt oldP).parent ≠ t.nilP →
      oldP ≠ (t.nodeAt ((t.nodeAt oldP).parent)).left →
      ((t.transplant oldP newP).nodeAt ((t.nodeAt oldP).parent)).right = newP ∧
      ((t.transplant oldP newP).nodeAt ((t.nodeAt oldP).parent)).left =
        (t.nodeAt ((t.nodeAt oldP).parent)).left) ∧
    (newP ≠ t.nilP → ((t.transplant oldP newP).nodeAt newP).parent =
      (t.nodeAt oldP).parent) ∧
    (newP = t.nilP → ((t.transplant oldP newP).nodeAt newP).parent =
      (t.nodeAt newP).parent) ∧
    (((t.transplant oldP newP).nodeAt oldP).left = (t.nodeAt oldP).left ∧
     ((t.transplant oldP newP).nodeAt oldP).right = (t.nodeAt oldP).right) ∧
    (((t.transplant oldP newP).nodeAt newP).left = (t.nodeAt newP).left ∧
     ((t.transplant oldP newP).nodeAt newP).right = (t.nodeAt newP).right) := by
  have hob : oldP ≠ (t.nodeAt oldP).parent := fun h => hpo h.symm
  have hreform := t.transplant_reform oldP newP hpo
  by_cases hnew : newP = t.nilP
  · have hnbd : newP ≠ (t.nodeAt oldP).parent ∨ (t.nodeAt oldP).parent = t.nilP := by
      by_cases hp : (t.nodeAt oldP).parent = t.nilP
      · exact Or.inr hp
      · exact Or.inl (fun hc => hp (hc ▸ hnew))
    have htr : t.transplant oldP newP = t.transplantBranch oldP newP := by
      rw [hreform, if_neg (by simp [hnew])]
    refine ⟨?_, ?_, ?_, ?_, ?_, ?_, ?_, ?_⟩
    · intro h; rw [htr, t.transplantBranch_root, if_pos h]
    · intro h; rw [htr, t.transplantBranch_root, if_neg h]
    · intro h hside
      rw [htr, t.transplantBranch_nodeAt_parent oldP newP h (hpv h), if_pos hside]
      exact ⟨rfl, rfl⟩
    · intro h hside
      rw [htr, t.transplantBranch_nodeAt_parent oldP newP h (hpv h), if_neg hside]
      exact ⟨rfl, rfl⟩
    · intro h; exact absurd hnew h
    · intro _; rw [htr, t.transplantBranch_nodeAt_ne oldP newP newP hnbd]
    · rw [htr, t.transplantBranch_nodeAt_ne oldP newP oldP (Or.inl hob)]
      exact ⟨rfl, rfl⟩
    · rw [htr, t.transplantBranch_nodeAt_ne oldP newP newP hnbd]
      exact ⟨rfl, rfl⟩
  · have hpn1 : (t.nodeAt oldP).parent ≠ newP := hpn hnew
    have hnb : newP ≠ (t.nodeAt oldP).parent := fun h => hpn1 h.symm
    have htr : t.transplant oldP newP =
        (t.transplantBranch oldP newP).setParentPtr newP ((t.nodeAt oldP).parent) := by
      rw [hreform, if_pos (by simp [hnew])]
    have hval : (t.transplantBranch oldP newP).validAddr newP = true := by
      rw [Tree.validAddr_congr (t.transplantBranch oldP newP) t
        (t.transplantBranch_length oldP newP) newP]
      exact hnv hnew
    refine ⟨?_, ?_, ?_, ?_, ?_, ?_, ?_, ?_⟩
    · intro h
      rw [htr]
      simp only [Tree.setParentPtr, Tree.root_writeAt]
      rw [t.transplantBranch_root, if_pos h]
    · intro h
      rw [htr]
      simp only [Tree.setParentPtr, Tree.root_writeAt]
      rw [t.transplantBranch_root, if_neg h]
    · intro h hside
      rw [htr]
      simp only [Tree.setParentPtr]
      rw [Tree.nodeAt_writeAt_ne _ newP _ _ hpn1,
        t.transplantBranch_nodeAt_parent oldP newP h (hpv h), if_pos hside]
      exact ⟨rfl, rfl⟩
    · intro h hside
      rw [htr]
      simp only [Tree.setParentPtr]
      rw [Tree.nodeAt_writeAt_ne _ newP _ _ hpn1,
        t.transplantBranch_nodeAt_parent oldP newP h (hpv h), if_neg hside]
      exact ⟨rfl, rfl⟩
    · intro _
      rw [htr]
      simp only [Tree.setParentPtr]
      rw [Tree.nodeAt_writeAt_valid _ newP _ hval]
    · intro h; exact absurd h hnew
    · rw [htr]
      simp only [Tree.setParentPtr]
      have hf := Tree.nodeAt_writeAt_frame (t.transplantBranch oldP newP) newP oldP
        (fun r => { r with parent := (t.nodeAt oldP).parent })
        (fun _ => rfl) (fun _ => rfl)
      rw [hf.1, hf.2, t.transplantBranch_nodeAt_ne oldP newP oldP (Or.inl hob)]
      exact ⟨rfl, rfl⟩
    · rw [htr]
      simp only [Tree.setParentPtr]
      have hf := Tree.nodeAt_writeAt_frame (t.transplantBranch oldP newP) newP newP
        (fun r => { r with parent := (t.nodeAt oldP).parent })
        (fun _ => rfl) (fun _ => rfl)
      rw [hf.1, hf.2, t.transplantBranch_nodeAt_ne oldP newP newP (Or.inl hnb)]
      exact ⟨rfl, rfl⟩

/-- Witness for C6 at a concrete input: transplanting the leaf node of the
one-node tree `bstLeafEx` with the sentinel. -/
theorem c6_transplant_witness :
    (bstLeafEx.transplant (some 1) (some 0)).root = some 0 :=
  (c6_transplant_spec bstLeafEx (some 1) (some 0)
    (by decide) (fun hne => (hne (by decide)).elim) (fun hne => (hne (by decide)).elim)
    (fun h => (h (by decide)).elim)).1 (by decide)

/-! ## Claim C8: the black-height mismatch error and the reported key -/

/-- A red-black tree state with a black-height mismatch: a black root (key
2) whose left child (key 1) is a black leaf and whose right child is the
sentinel.  The first leaf path (through node 1) counts two black nodes;
the unary root's own path counts one.  Such a state is reachable through
the exported `MustSetMetadata`, exactly as the repository's own
validation tests build their invalid trees. -/
def rbBadBlackCount : RBTree Int Int :=
  { tree :=
      { root := some 2
        less := lessInt
        heap := [{ key := 0, value := 0, parent := some 0, left := none,
                   right := none, metadata := Black },
                 { key := 1, value := 0, parent := some 2, left := some 0,
                   right := some 0, metadata := Black },
                 { key := 2, value := 0, parent := some 0, left := some 1,
                   right := some 0, metadata := Black }]
        nilP := some 0 }
    size := 2 }

/-- Claim C8 (code bug): on the first black-count mismatch the validator
does return an error, but the key it reports is `t.Key(n)` after the
counting loop has walked `n` up to the sentinel — the sentinel's
zero-value key 0 — not the key 2 of the offending (mismatching) node. -/
theorem c8_mismatch_reports_sentinel_key :
    rbBadBlackCount.isTreeValidRB =
      some (some (RBErr.blackCountMismatch 0)) ∧
    (rbBadBlackCount.tree.nodeAt rbBadBlackCount.tree.root).key = 2 ∧
    (rbBadBlackCount.tree.nodeAt rbBadBlackCount.tree.nilP).key = 0 := by
  refine ⟨by decide, by decide, by decide⟩

/-! ## Representation of heap-linked trees as inductive trees

A `repB t par p T` check says: the pointer structure reachable from `p`
(whose parent back-pointer is `par`) lays out exactly the inductive shape
`T`, whose nodes carry heap addresses.  This is the bridge that lets the
pointer-level operations be reasoned about by structural induction. -/

/-- An inductive binary tree of heap addresses. -/
inductive ITree where
  | leaf : ITree
  | node (l : ITree) (a : Nat) (r : ITree) : ITree
deriving Repr, DecidableEq

/-- All addresses of the tree, in in-order. -/
def ITree.addrs : ITree → List Nat
  | .leaf => []
  | .node l a r => l.addrs ++ a :: r.addrs

/-- Number of nodes. -/
def ITree.size : ITree → Nat
  | .leaf => 0
  | .node l _ r => l.size + r.size + 1

/-- The pointer representing a subtree: the sentinel for a leaf, the root
address otherwise. -/
def ITree.ptrIn (nilP : Ptr) : ITree → Ptr
  | .leaf => nilP
  | .node _ a _ => some a

/-- Does the pointer `p`, with parent back-pointer `par`, lay out the
shape `T` in the heap of `t`? -/
def Tree.repB (t : Tree K V M) : Ptr → Ptr → ITree → Bool
  | _, p, .leaf => decide (p = t.nilP)
  | par, p, .node l a r =>
    decide (p = some a) && decide (some a ≠ t.nilP) &&
    decide (a < t.heap.length) &&
    decide ((t.nodeAt (some a)).parent = par) &&
    t.repB (some a) (t.nodeAt (some a)).left l &&
    t.repB (some a) (t.nodeAt (some a)).right r

/-- The in-order key sequence of a represented tree, read from the heap. -/
def Tree.keysOf (t : Tree K V M) : ITree → List K
  | .leaf => []
  | .node l a r => t.keysOf l ++ (t.nodeAt (some a)).key :: t.keysOf r

/-- Does the predicate hold of every key of the represented tree? -/
def Tree.allKeysB (t : Tree K V M) (p : K → Bool) : ITree → Bool
  | .leaf => true
  | .node l a r => p (t.nodeAt (some a)).key && t.allKeysB p l && t.allKeysB p r

/-- The binary-search-tree ordering invariant over the represented tree. -/
def Tree.sortedB (t : Tree K V M) : ITree → Bool
  | .leaf => true
  | .node l a r =>
    t.sortedB l && t.sortedB r &&
    t.allKeysB (fun k => t.less k (t.nodeAt (some a)).key) l &&
    t.allKeysB (fun k => t.less (t.nodeAt (some a)).key k) r

/-- Does some node of the represented tree have a key that `keyEq`-matches
the given key? -/
def Tree.hasKeyB (t : Tree K V M) (key : K) : ITree → Bool
  | .leaf => false
  | .node l a r =>
    t.keyEq (t.nodeAt (some a)).key key || t.hasKeyB key l || t.hasKeyB key r

theorem ITree.length_addrs (T : ITree) : T.addrs.length = T.size := by
  induction T with
  | leaf => rfl
  | node l a r ihl ihr => simp [ITree.addrs, ITree.size, ihl, ihr]; omega

theorem Tree.rep_mem_valid (t : Tree K V M) :
    ∀ (T : ITree) (par p : Ptr), t.repB par p T = true →
      ∀ a ∈ T.addrs, a < t.heap.length ∧ some a ≠ t.nilP := by
  intro T
  induction T with
  | leaf => intro par p _ a ha; simp [ITree.addrs] at ha
  | node l b r ihl ihr =>
    intro par p hrep a ha
    simp only [Tree.repB, Bool.and_eq_true, decide_eq_true_eq] at hrep
    obtain ⟨⟨⟨⟨⟨hp, hnn⟩, hlen⟩, hpar⟩, hl⟩, hr⟩ := hrep
    simp only [ITree.addrs, List.mem_append, List.mem_cons] at ha
    rcases ha with ha | ha | ha
    · exact ihl _ _ hl a ha
    · exact ha ▸ ⟨hlen, hnn⟩
    · exact ihr _ _ hr a ha

theorem Tree.rep_size_le (t : Tree K V M) (T : ITree) (par p : Ptr)
    (hrep : t.repB par p T = true) (hnd : T.addrs.Nodup) :
    T.size ≤ t.heap.length := by
  have hvalid := t.rep_mem_valid T par p hrep
  have hsub : T.addrs.toFinset ⊆ Finset.range t.heap.length := by
    intro a ha
    rw [List.mem_toFinset] at ha
    exact Finset.mem_range.mpr (hvalid a ha).1
  have hcard := Finset.card_le_card hsub
  rw [List.toFinset_card_of_nodup hnd, Finset.card_range] at hcard
  rw [← ITree.length_addrs]
  exact hcard

/-- Keys of a subtree below a strict bound cannot `keyEq`-match a key that
the bound itself is below (uses transitivity of the order). -/
theorem Tree.hasKey_false_of_lt_bound (t : Tree K V M) (key bound : K)
    (htrans : ∀ a b c : K, t.less a b = true → t.less b c = true →
      t.less a c = true)
    (hb : t.less bound key = true) :
    ∀ T : ITree, t.allKeysB (fun k => t.less k bound) T = true →
      t.hasKeyB key T = false := by
  intro T
  induction T with
  | leaf => intro _; rfl
  | node l a r ihl ihr =>
    intro hall
    simp only [Tree.allKeysB, Bool.and_eq_true] at hall
    obtain ⟨⟨hk, hl⟩, hr⟩ := hall
    simp only [Tree.hasKeyB, Bool.or_eq_false_iff]
    refine ⟨⟨?_, ihl hl⟩, ihr hr⟩
    have hlt := htrans _ _ _ hk hb
    simp only [Tree.keyEq, Bool.and_eq_false_iff, Bool.not_eq_false']
    exact Or.inl hlt

/-- Keys of a subtree above a strict bound cannot `keyEq`-match a key that
is below the bound (uses transitivity of the order). -/
theorem Tree.hasKey_false_of_gt_bound (t : Tree K V M) (key bound : K)
    (htrans : ∀ a b c : K, t.less a b = true → t.less b c = true →
      t.less a c = true)
    (hb : t.less key bound = true) :
    ∀ T : ITree, t.allKeysB (fun k => t.less bound k) T = true →
      t.hasKeyB key T = false := by
  intro T
  induction T with
  | leaf => intro _; rfl
  | node l a r ihl ihr =>
    intro hall
    simp only [Tree.allKeysB, Bool.and_eq_true] at hall
    obtain ⟨⟨hk, hl⟩, hr⟩ := hall
    simp only [Tree.hasKeyB, Bool.or_eq_false_iff]
    refine ⟨⟨?_, ihl hl⟩, ihr hr⟩
    have hlt := htrans _ _ _ hb hk
    simp only [Tree.keyEq, Bool.and_eq_false_iff, Bool.not_eq_false']
    exact Or.inr hlt

/-- The descent loop finds a matching node whenever the represented tree
is sorted and contains the key. -/
theorem Tree.insertFind_found (t : Tree K V M) (key : K)
    (htrans : ∀ a b c : K, t.less a b = true → t.less b c = true →
      t.less a c = true) :
    ∀ (T : ITree) (fuel : Nat) (par p : Ptr),
      t.repB par p T = true → t.sortedB T = true → T.size < fuel →
      t.hasKeyB key T = true →
      ∃ a, a ∈ T.addrs ∧ t.keyEq (t.nodeAt (some a)).key key = true ∧
        t.insertFind key fuel par p = .found (some a) := by
  intro T
  induction T with
  | leaf => intro fuel par p _ _ _ hk; simp [Tree.hasKeyB] at hk
  | node l b r ihl ihr =>
    intro fuel par p hrep hsort hsz hk
    obtain ⟨f, rfl⟩ : ∃ f, fuel = f + 1 :=
      ⟨fuel - 1, by simp [ITree.size] at hsz; omega⟩
    simp only [Tree.repB, Bool.and_eq_true, decide_eq_true_eq] at hrep
    obtain ⟨⟨⟨⟨⟨hp, hnn⟩, hlen⟩, hpar⟩, hl⟩, hr⟩ := hrep
    simp only [Tree.sortedB, Bool.and_eq_true] at hsort
    obtain ⟨⟨⟨hsl, hsr⟩, hbl⟩, hbr⟩ := hsort
    subst hp
    by_cases hkeq : t.keyEq (t.nodeAt (some b)).key key = true
    · refine ⟨b, by simp [ITree.addrs], hkeq, ?_⟩
      simp only [Tree.insertFind]
      rw [if_neg hnn, if_pos hkeq]
    · have hsplit : t.less (t.nodeAt (some b)).key key = true ∨
          t.less key (t.nodeAt (some b)).key = true := by
        by_contra hcon
        push_neg at hcon
        obtain ⟨h1, h2⟩ := hcon
        apply hkeq
        have h1' : t.less (t.nodeAt (some b)).key key = false :=
          Bool.eq_false_iff.mpr h1
        have h2' : t.less key (t.nodeAt (some b)).key = false :=
          Bool.eq_false_iff.mpr h2
        simp [Tree.keyEq, h1', h2']
      have hkfalse : t.keyEq (t.nodeAt (some b)).key key = false :=
        Bool.eq_false_iff.mpr hkeq
      by_cases hless : t.less key (t.nodeAt (some b)).key = true
      · -- descend left; the key cannot be in the right subtree
        have hkr : t.hasKeyB key r = false :=
          t.hasKey_false_of_gt_bound key (t.nodeAt (some b)).key htrans hless r hbr
        have hkl : t.hasKeyB key l = true := by
          simp only [Tree.hasKeyB, Bool.or_eq_true] at hk
          rcases hk with (hk | hk) | hk
          · exact absurd hk hkeq
          · exact hk
          · rw [hkr] at hk; exact absurd hk (by simp)
        obtain ⟨a, hmem, hkeqa, hfind⟩ :=
          ihl f (some b) (t.nodeAt (some b)).left hl hsl
            (by simp [ITree.size] at hsz ⊢; omega) hkl
        refine ⟨a, by simp [ITree.addrs, hmem], hkeqa, ?_⟩
        simp only [Tree.insertFind]
        rw [if_neg hnn, if_neg hkeq, if_pos hless]
        exact hfind
      · -- descend right; the key cannot be in the left subtree
        have hgt : t.less (t.nodeAt (some b)).key key = true := by
          rcases hsplit with h | h
          · exact h
          · exact absurd h hless
        have hkl : t.hasKeyB key l = false :=
          t.hasKey_false_of_lt_bound key (t.nodeAt (some b)).key htrans hgt l hbl
        have hkr : t.hasKeyB key r = true := by
          simp only [Tree.hasKeyB, Bool.or_eq_true] at hk
          rcases hk with (hk | hk) | hk
          · exact absurd hk hkeq
          · rw [hkl] at hk; exact absurd hk (by simp)
          · exact hk
        obtain ⟨a, hmem, hkeqa, hfind⟩ :=
          ihr f (some b) (t.nodeAt (some b)).right hr hsr
            (by simp [ITree.size] at hsz ⊢; omega) hkr
        refine ⟨a, by simp [ITree.addrs, hmem], hkeqa, ?_⟩
        simp only [Tree.insertFind]
        rw [if_neg hnn, if_neg hkeq, if_neg hless]
        exact hfind

/-- When no key of the represented tree matches, the descent loop falls
off at a sentinel; the trailing parent is the initial one for an empty
tree and some node of the tree otherwise. -/
theorem Tree.insertFind_notFound (t : Tree K V M) (key : K) :
    ∀ (T : ITree) (fuel : Nat) (par p : Ptr),
      t.repB par p T = true → T.size < fuel → t.hasKeyB key T = false →
      (T = .leaf ∧ t.insertFind key fuel par p = .leaf par) ∨
      (∃ qa, qa ∈ T.addrs ∧ t.insertFind key fuel par p = .leaf (some qa)) := by
  intro T
  induction T with
  | leaf =>
    intro fuel par p hrep _ _
    have hp : p = t.nilP := by simpa [Tree.repB] using hrep
    refine Or.inl ⟨rfl, ?_⟩
    cases fuel with
    | zero => simp [Tree.insertFind, hp]
    | succ f => simp [Tree.insertFind, hp]
  | node l b r ihl ihr =>
    intro fuel par p hrep hsz hk
    obtain ⟨f, rfl⟩ : ∃ f, fuel = f + 1 :=
      ⟨fuel - 1, by simp [ITree.size] at hsz; omega⟩
    simp only [Tree.repB, Bool.and_eq_true, decide_eq_true_eq] at hrep
    obtain ⟨⟨⟨⟨⟨hp, hnn⟩, hlen⟩, hpar⟩, hl⟩, hr⟩ := hrep
    subst hp
    simp only [Tree.hasKeyB, Bool.or_eq_false_iff] at hk
    obtain ⟨⟨hkeq, hkl⟩, hkr⟩ := hk
    have hkeq' : ¬ t.keyEq (t.nodeAt (some b)).key key = true := by simp [hkeq]
    by_cases hless : t.less key (t.nodeAt (some b)).key = true
    · rcases ihl f (some b) (t.nodeAt (some b)).left hl
        (by simp [ITree.size] at hsz ⊢; omega) hkl with ⟨_, hfind⟩ | ⟨qa, hmem, hfind⟩
      · refine Or.inr ⟨b, by simp [ITree.addrs], ?_⟩
        simp only [Tree.insertFind]
        rw [if_neg hnn, if_neg hkeq', if_pos hless]
        exact hfind
      · refine Or.inr ⟨qa, by simp [ITree.addrs, hmem], ?_⟩
        simp only [Tree.insertFind]
        rw [if_neg hnn, if_neg hkeq', if_pos hless]
        exact hfind
    · rcases ihr f (some b) (t.nodeAt (some b)).right hr
        (by simp [ITree.size] at hsz ⊢; omega) hkr with ⟨_, hfind⟩ | ⟨qa, hmem, hfind⟩
      · refine Or.inr ⟨b, by simp [ITree.addrs], ?_⟩
        simp only [Tree.insertFind]
        rw [if_neg hnn, if_neg hkeq', if_neg hless]
        exact hfind
      · refine Or.inr ⟨qa, by simp [ITree.addrs, hmem], ?_⟩
        simp only [Tree.insertFind]
        rw [if_neg hnn, if_neg hkeq', if_neg hless]
        exact hfind

/-! ## Claim C2: the BST Insert contract -/

/-- Counterexample for C2 as stated: the BST `Insert` returns `false` when
it attaches a fresh key and `true` when it overwrites the value of an
existing key — the opposite of the booleans the claim asserts. -/
theorem c2_insert_flag_counterexample :
    ((newTree lessInt : Tree Int Int Unit).insert 1 10).map (fun r => r.2.2) =
      some false ∧
    (((newTree lessInt : Tree Int Int Unit).insert 1 10).bind
        (fun r => r.1.insert 1 20)).map (fun r => r.2.2) = some true :=
  ⟨by decide, by decide⟩

/-- The allocation step of `Insert`: the new node exactly as the source
builds it (`left` and `right` the sentinel, metadata at its zero value),
appended to the heap. -/
def Tree.insertAlloc (t : Tree K V M) (key : K) (value : V) (parent : Ptr) :
    Tree K V M :=
  { t with heap := t.heap ++
      [{ key := key, value := value, parent := parent,
         left := t.nilP, right := t.nilP, metadata := default }] }

theorem Tree.nodeAt_insertAlloc_new (t : Tree K V M) (key : K) (value : V)
    (parent : Ptr) :
    (t.insertAlloc key value parent).nodeAt (some t.heap.length) =
      { key := key, value := value, parent := parent,
        left := t.nilP, right := t.nilP, metadata := default } := by
  simp [Tree.insertAlloc, Tree.nodeAt, List.getD, List.getElem?_concat_length]

theorem Tree.nodeAt_insertAlloc_old (t : Tree K V M) (key : K) (value : V)
    (parent : Ptr) (a : Nat) (ha : a < t.heap.length) :
    (t.insertAlloc key value parent).nodeAt (some a) = t.nodeAt (some a) := by
  simp only [Tree.insertAlloc, Tree.nodeAt]
  exact List.getD_append _ _ _ a ha

/-- Claim C2, amended as the counterexample forces: the booleans are
swapped — `(existingNode, true)` on a key match, `(newNode, false)` on a
fresh insert — matching the source's own documentation.  Everything else
in the claim holds: on a key match the value is overwritten in place (the
result is exactly `setValueAt` at that node, so the shape, the node
identity and every other field are untouched); on a miss a fresh node
whose two children are the sentinel is attached under the walk's trailing
parent on the side selected by `less` (or becomes root when the tree was
empty), and nothing else changes.  The tree is assumed well formed:
represented by a shape `T` with distinct addresses, sorted, and with a
transitive comparison (the spec requires a strict weak order). -/
theorem c2_insert_correct_amended
    {K V M : Type} [Inhabited K] [Inhabited V] [Inhabited M]
    (t : Tree K V M) (T : ITree) (key : K) (value : V)
    (hrep : t.repB t.nilP t.root T = true)
    (hnd : T.addrs.Nodup)
    (hsort : t.sortedB T = true)
    (htrans : ∀ a b c : K, t.less a b = true → t.less b c = true →
      t.less a c = true) :
    (t.hasKeyB key T = true →
      ∃ a, a ∈ T.addrs ∧ t.keyEq (t.nodeAt (some a)).key key = true ∧
        t.insert key value = some (t.setValueAt (some a) value, some a, true)) ∧
    (t.hasKeyB key T = false →
      (T = .leaf →
        t.insert key value =
          some ({ t.insertAlloc key value t.nilP with root := some t.heap.length },
            some t.heap.length, false) ∧
        (t.insertAlloc key value t.nilP).nodeAt (some t.heap.length) =
          { key := key, value := value, parent := t.nilP,
            left := t.nilP, right := t.nilP, metadata := default }) ∧
      (T ≠ .leaf →
        ∃ qa, qa ∈ T.addrs ∧
          t.insert key value =
            some ((if t.less key (t.nodeAt (some qa)).key then
                    (t.insertAlloc key value (some qa)).setLeftPtr (some qa)
                      (some t.heap.length)
                   else
                    (t.insertAlloc key value (some qa)).setRightPtr (some qa)
                      (some t.heap.length)),
              some t.heap.length, false) ∧
          ((t.insertAlloc key value (some qa)).setLeftPtr (some qa)
              (some t.heap.length)).nodeAt (some t.heap.length) =
            { key := key, value := value, parent := some qa,
              left := t.nilP, right := t.nilP, metadata := default } ∧
          ((t.insertAlloc key value (some qa)).setRightPtr (some qa)
              (some t.heap.length)).nodeAt (some t.heap.length) =
            { key := key, value := value, parent := some qa,
              left := t.nilP, right := t.nilP, metadata := default } ∧
          ((t.insertAlloc key value (some qa)).setLeftPtr (some qa)
              (some t.heap.length)).root = t.root ∧
          ((t.insertAlloc key value (some qa)).setRightPtr (some qa)
              (some t.heap.length)).root = t.root)) := by
  have hszle := t.rep_size_le T t.nilP t.root hrep hnd
  have hsz : T.size < t.heap.length + 1 := by omega
  constructor
  · intro hk
    obtain ⟨a, hmem, hkeq, hfind⟩ :=
      t.insertFind_found key htrans T (t.heap.length + 1) t.nilP t.root
        hrep hsort hsz hk
    refine ⟨a, hmem, hkeq, ?_⟩
    simp only [Tree.insert, hfind]
  · intro hk
    rcases t.insertFind_notFound key T (t.heap.length + 1) t.nilP t.root
        hrep hsz hk with ⟨hTleaf, hfind⟩ | ⟨qa, hmem, hfind⟩
    · constructor
      · intro _
        constructor
        · simp only [Tree.insert, hfind, if_pos rfl]
          rfl
        · exact t.nodeAt_insertAlloc_new key value t.nilP
      · intro hne; exact absurd hTleaf hne
    · constructor
      · intro hTleaf
        subst hTleaf
        simp [ITree.addrs] at hmem
      · intro _
        have hqa := t.rep_mem_valid T t.nilP t.root hrep qa hmem
        have hqne : (some qa : Ptr) ≠ t.nilP := hqa.2
        have hqlen : qa < t.heap.length := hqa.1
        have hne : (some t.heap.length : Ptr) ≠ some qa := by
          intro hc
          have : t.heap.length = qa := by injection hc
          omega
        refine ⟨qa, hmem, ?_, ?_, ?_, ?_, ?_⟩
        · simp only [Tree.insert, hfind, if_neg hqne]
          rfl
        · rw [Tree.setLeftPtr, Tree.nodeAt_writeAt_ne _ _ _ _ hne,
            t.nodeAt_insertAlloc_new key value (some qa)]
        · rw [Tree.setRightPtr, Tree.nodeAt_writeAt_ne _ _ _ _ hne,
            t.nodeAt_insertAlloc_new key value (some qa)]
        · rw [Tree.setLeftPtr, Tree.root_writeAt]; rfl
        · rw [Tree.setRightPtr, Tree.root_writeAt]; rfl

/-- Witness for C2 at a concrete input: inserting the already-present key
5 into the one-node tree `bstLeafEx` updates the value in place and
returns the existing node with `true`. -/
theorem c2_insert_witness :
    ∃ a, a ∈ (ITree.node .leaf 1 .leaf).addrs ∧
      bstLeafEx.keyEq (bstLeafEx.nodeAt (some a)).key 5 = true ∧
      bstLeafEx.insert 5 99 =
        some (bstLeafEx.setValueAt (some a) 99, some a, true) :=
  (c2_insert_correct_amended bstLeafEx (ITree.node .leaf 1 .leaf) 5 99
    (by decide) (by decide) (by decide)
    (fun a b c hab hbc => by
      simp only [bstLeafEx, lessInt, decide_eq_true_eq] at hab hbc ⊢
      omega)).1 (by decide)

/-! ## Claim C5: rotations -/

section Rotation

@[simp] theorem Tree.nodeAt_rootUpdate (t : Tree K V M) (q p : Ptr) :
    ({ t with root := q }).nodeAt p = t.nodeAt p := rfl

@[simp] theorem Tree.nilP_rootUpdate (t : Tree K V M) (q : Ptr) :
    ({ t with root := q }).nilP = t.nilP := rfl

/-- Normal form of `RotateLeft` at a node `x` (valid, not the sentinel)
whose right child is a real node `y`: the source's pointer reads resolved
against the initial state, legitimate under the stated distinctness
facts, with the two data-dependent branches (`b` real or sentinel; the
parent's slot) kept as conditionals. -/
theorem Tree.rotateLeft_eq (t : Tree K V M) (x y : Nat)
    (hxn : (some x : Ptr) ≠ t.nilP) (hyn : (some y : Ptr) ≠ t.nilP)
    (hxv : x < t.heap.length) (hxy : x ≠ y)
    (hxr : (t.nodeAt (some x)).right = some y)
    (hbx : (t.nodeAt (some y)).left ≠ some x)
    (hpx : (t.nodeAt (some x)).parent ≠ some x)
    (hpy : (t.nodeAt (some x)).parent ≠ some y)
    (hpb : (t.nodeAt (some y)).left ≠ t.nilP →
      (t.nodeAt (some x)).parent ≠ (t.nodeAt (some y)).left) :
    t.rotateLeft (some x) =
      (let B := (t.nodeAt (some y)).left
       let P := (t.nodeAt (some x)).parent
       let T1 := t.writeAt (some x) (fun r => { r with right := B })
       let T2 := if B ≠ t.nilP then
           T1.writeAt B (fun r => { r with parent := some x })
         else T1
       let T3 := T2.writeAt (some y) (fun r => { r with parent := P })
       let T4 := if P = t.nilP then { T3 with root := some y }
         else if (t.nodeAt P).left = some x then
           T3.writeAt P (fun r => { r with left := some y })
         else
           T3.writeAt P (fun r => { r with right := some y })
       let T5 := T4.writeAt (some y) (fun r => { r with left := some x })
       T5.writeAt (some x) (fun r => { r with parent := some y })) := by
  have hguard : ¬ ((some x : Ptr) = none ∨ (some x : Ptr) = t.nilP ∨
      (t.nodeAt (some x)).right = t.nilP) := by
    push_neg
    exact ⟨by simp, hxn, by rw [hxr]; exact hyn⟩
  have hyx : (some y : Ptr) ≠ some x := fun hc => hxy (Option.some.inj hc).symm
  have hxy' : (some x : Ptr) ≠ some y := fun hc => hxy (Option.some.inj hc)
  have hxB : (some x : Ptr) ≠ (t.nodeAt (some y)).left := fun hc => hbx hc.symm
  have hxvalid : t.validAddr (some x) = true := by
    simp [Tree.validAddr, hxv]
  conv_lhs => rw [Tree.rotateLeft]
  rw [if_neg hguard, hxr]
  simp only [Tree.setLeftPtr, Tree.setRightPtr, Tree.setParentPtr]
  rw [t.nodeAt_writeAt_ne (some x) (some y) _ hyx]
  simp only [Tree.nilP_writeAt]
  have hr2 : ((t.writeAt (some x)
      (fun r => { r with right := (t.nodeAt (some y)).left })).nodeAt
        (some x)).parent = (t.nodeAt (some x)).parent := by
    rw [t.nodeAt_writeAt_valid (some x) _ hxvalid]
  by_cases hB : (t.nodeAt (some y)).left = t.nilP
  · have hBn : ¬ ((t.nodeAt (some y)).left ≠ t.nilP) := fun hc => hc hB
    rw [if_neg hBn]
    rw [Tree.nodeAt_writeAt_ne _ (some y) (some x) _ hxy']
    rw [hr2]
    rw [Tree.nodeAt_writeAt_ne _ (some y)
      ((t.nodeAt (some x)).parent) _ hpy]
    rw [Tree.nodeAt_writeAt_ne _ (some x)
      ((t.nodeAt (some x)).parent) _ hpx]
    simp only [Tree.nilP_writeAt]
  · have hBne : (t.nodeAt (some y)).left ≠ t.nilP := hB
    rw [if_pos hBne]
    rw [Tree.nodeAt_writeAt_ne _ (some y) (some x) _ hxy']
    rw [Tree.nodeAt_writeAt_ne _ ((t.nodeAt (some y)).left) (some x) _ hxB]
    rw [hr2]
    rw [Tree.nodeAt_writeAt_ne _ (some y)
      ((t.nodeAt (some x)).parent) _ hpy]
    rw [Tree.nodeAt_writeAt_ne _ ((t.nodeAt (some y)).left)
      ((t.nodeAt (some x)).parent) _ (hpb hBne)]
    rw [Tree.nodeAt_writeAt_ne _ (some x)
      ((t.nodeAt (some x)).parent) _ hpx]
    simp only [Tree.nilP_writeAt]

@[simp] theorem Tree.length_rootUpdate (t : Tree K V M) (q : Ptr) :
    ({ t with root := q }).heap.length = t.heap.length := rfl

@[simp] theorem Tree.less_rootUpdate (t : Tree K V M) (q : Ptr) :
    ({ t with root := q }).less = t.less := rfl

@[simp] theorem Tree.root_rootUpdate (t : Tree K V M) (q : Ptr) :
    ({ t with root := q }).root = q := rfl

theorem Tree.nodeAt_ite (c : Prop) [Decidable c] (a b : Tree K V M) (p : Ptr) :
    (if c then a else b).nodeAt p = if c then a.nodeAt p else b.nodeAt p := by
  split <;> rfl

theorem Tree.length_ite (c : Prop) [Decidable c] (a b : Tree K V M) :
    (if c then a else b).heap.length =
      if c then a.heap.length else b.heap.length := by
  split <;> rfl

theorem Tree.nilP_ite (c : Prop) [Decidable c] (a b : Tree K V M) :
    (if c then a else b).nilP = if c then a.nilP else b.nilP := by
  split <;> rfl

theorem Tree.root_ite (c : Prop) [Decidable c] (a b : Tree K V M) :
    (if c then a else b).root = if c then a.root else b.root := by
  split <;> rfl

theorem Tree.less_ite (c : Prop) [Decidable c] (a b : Tree K V M) :
    (if c then a else b).less = if c then a.less else b.less := by
  split <;> rfl

/-- Local well-formedness facts around a left rotation at `x` whose right
child is the real node `y`; `b` abbreviates `y`'s left child and `p`
abbreviates `x`'s parent.  All of these hold for any node of a tree that
is represented by a duplicate-free shape (`Tree.repB` plus `Nodup`). -/
structure RotLCtx (t : Tree K V M) (x y : Nat) : Prop where
  xn : (some x : Ptr) ≠ t.nilP
  yn : (some y : Ptr) ≠ t.nilP
  xv : x < t.heap.length
  yv : y < t.heap.length
  xy : x ≠ y
  xr : (t.nodeAt (some x)).right = some y
  ypar : (t.nodeAt (some y)).parent = some x
  bx : (t.nodeAt (some y)).left ≠ some x
  bby : (t.nodeAt (some y)).left ≠ some y
  bv : (t.nodeAt (some y)).left ≠ t.nilP →
    t.validAddr ((t.nodeAt (some y)).left) = true
  bpar : (t.nodeAt (some y)).left ≠ t.nilP →
    (t.nodeAt ((t.nodeAt (some y)).left)).parent = some y
  px : (t.nodeAt (some x)).parent ≠ some x
  py : (t.nodeAt (some x)).parent ≠ some y
  pb : (t.nodeAt (some y)).left ≠ t.nilP →
    (t.nodeAt (some x)).parent ≠ (t.nodeAt (some y)).left
  pv : (t.nodeAt (some x)).parent ≠ t.nilP →
    t.validAddr ((t.nodeAt (some x)).parent) = true
  proot : (t.nodeAt (some x)).parent = t.nilP → t.root = some x
  pchild : (t.nodeAt (some x)).parent ≠ t.nilP →
    ((t.nodeAt ((t.nodeAt (some x)).parent)).left = some x ∨
     (t.nodeAt ((t.nodeAt (some x)).parent)).right = some x)
  plny : (t.nodeAt (some x)).parent ≠ t.nilP →
    (t.nodeAt ((t.nodeAt (some x)).parent)).left ≠ some y

/-- Characterization of `RotateLeft` under `RotLCtx`: the final value of
every touched node record, the root, and a frame property for every
other address. -/
theorem Tree.rotateLeft_spec (t : Tree K V M) (x y : Nat) (h : RotLCtx t x y) :
    (t.rotateLeft (some x)).nilP = t.nilP ∧
    (t.rotateLeft (some x)).less = t.less ∧
    (t.rotateLeft (some x)).heap.length = t.heap.length ∧
    (t.rotateLeft (some x)).root =
      (if (t.nodeAt (some x)).parent = t.nilP then some y else t.root) ∧
    (t.rotateLeft (some x)).nodeAt (some x) =
      { { t.nodeAt (some x) with right := (t.nodeAt (some y)).left }
          with parent := some y } ∧
    (t.rotateLeft (some x)).nodeAt (some y) =
      { { t.nodeAt (some y) with left := some x }
          with parent := (t.nodeAt (some x)).parent } ∧
    ((t.nodeAt (some y)).left ≠ t.nilP →
      (t.rotateLeft (some x)).nodeAt ((t.nodeAt (some y)).left) =
        { t.nodeAt ((t.nodeAt (some y)).left) with parent := some x }) ∧
    ((t.nodeAt (some x)).parent ≠ t.nilP →
      (t.rotateLeft (some x)).nodeAt ((t.nodeAt (some x)).parent) =
        (if (t.nodeAt ((t.nodeAt (some x)).parent)).left = some x then
          { t.nodeAt ((t.nodeAt (some x)).parent) with left := some y }
         else
          { t.nodeAt ((t.nodeAt (some x)).parent) with right := some y })) ∧
    (∀ q : Ptr, q ≠ some x → q ≠ some y →
      (q ≠ (t.nodeAt (some y)).left ∨ (t.nodeAt (some y)).left = t.nilP) →
      (q ≠ (t.nodeAt (some x)).parent ∨ (t.nodeAt (some x)).parent = t.nilP) →
      (t.rotateLeft (some x)).nodeAt q = t.nodeAt q) := by
  have heq := t.rotateLeft_eq x y h.xn h.yn h.xv h.xy h.xr h.bx h.px h.py h.pb
  have hxB : (some x : Ptr) ≠ (t.nodeAt (some y)).left :=
    fun hc => h.bx hc.symm
  have hyB : (some y : Ptr) ≠ (t.nodeAt (some y)).left :=
    fun hc => h.bby hc.symm
  have hyx : (some y : Ptr) ≠ some x := fun hc => h.xy (Option.some.inj hc).symm
  have hxy' : (some x : Ptr) ≠ some y := fun hc => h.xy (Option.some.inj hc)
  have hxP : (some x : Ptr) ≠ (t.nodeAt (some x)).parent :=
    fun hc => h.px hc.symm
  have hyP : (some y : Ptr) ≠ (t.nodeAt (some x)).parent :=
    fun hc => h.py hc.symm
  rw [heq]
  simp only []
  set B := (t.nodeAt (some y)).left with hBdef
  set P := (t.nodeAt (some x)).parent with hPdef
  set T1 := t.writeAt (some x) (fun r => { r with right := B }) with hT1
  set T2 := (if B ≠ t.nilP then
      T1.writeAt B (fun r => { r with parent := some x })
    else T1) with hT2
  set T3 := T2.writeAt (some y) (fun r => { r with parent := P }) with hT3
  set T4 := (if P = t.nilP then { T3 with root := some y }
    else if (t.nodeAt P).left = some x then
      T3.writeAt P (fun r => { r with left := some y })
    else
      T3.writeAt P (fun r => { r with right := some y })) with hT4
  set T5 := T4.writeAt (some y) (fun r => { r with left := some x }) with hT5
  -- lengths, nilP, less, root of the stages
  have hT1len : T1.heap.length = t.heap.length := by rw [hT1]; simp
  have hT2len : T2.heap.length = t.heap.length := by
    rw [hT2]; split <;> simp [hT1len]
  have hT3len : T3.heap.length = t.heap.length := by rw [hT3]; simp [hT2len]
  have hT4len : T4.heap.length = t.heap.length := by
    rw [hT4]; split
    · simp [hT3len]
    · split <;> simp [hT3len]
  have hT5len : T5.heap.length = t.heap.length := by rw [hT5]; simp [hT4len]
  have hT1nil : T1.nilP = t.nilP := by rw [hT1]; simp
  have hT2nil : T2.nilP = t.nilP := by rw [hT2]; split <;> simp [hT1nil]
  have hT3nil : T3.nilP = t.nilP := by rw [hT3]; simp [hT2nil]
  have hT4nil : T4.nilP = t.nilP := by
    rw [hT4]; split
    · simp [hT3nil]
    · split <;> simp [hT3nil]
  have hT5nil : T5.nilP = t.nilP := by rw [hT5]; simp [hT4nil]
  have hT1less : T1.less = t.less := by rw [hT1]; simp
  have hT2less : T2.less = t.less := by rw [hT2]; split <;> simp [hT1less]
  have hT3less : T3.less = t.less := by rw [hT3]; simp [hT2less]
  have hT4less : T4.less = t.less := by
    rw [hT4]; split
    · simp [hT3less]
    · split <;> simp [hT3less]
  have hT5less : T5.less = t.less := by rw [hT5]; simp [hT4less]
  have hT1root : T1.root = t.root := by rw [hT1]; simp
  have hT2root : T2.root = t.root := by rw [hT2]; split <;> simp [hT1root]
  have hT3root : T3.root = t.root := by rw [hT3]; simp [hT2root]
  have hT4root : T4.root = (if P = t.nilP then some y else t.root) := by
    rw [hT4]; split
    · simp
    · split <;> simp [hT3root]
  have hT5root : T5.root = (if P = t.nilP then some y else t.root) := by
    rw [hT5]; simp [hT4root]
  -- node records of the stages
  have hT1x : T1.nodeAt (some x) = { t.nodeAt (some x) with right := B } := by
    rw [hT1, t.nodeAt_writeAt_self x _ h.xv]
  have hT1ne : ∀ q : Ptr, q ≠ some x → T1.nodeAt q = t.nodeAt q := by
    intro q hq; rw [hT1, Tree.nodeAt_writeAt_ne _ _ _ _ hq]
  have hT2ne : ∀ q : Ptr, (q ≠ B ∨ B = t.nilP) → T2.nodeAt q = T1.nodeAt q := by
    intro q hq
    rw [hT2]; split
    · rcases hq with hq | hq
      · rw [Tree.nodeAt_writeAt_ne _ _ _ _ hq]
      · next hc => exact absurd hq hc
    · rfl
  have hT2b : B ≠ t.nilP → T2.nodeAt B = { t.nodeAt B with parent := some x } := by
    intro hBr
    rw [hT2, if_pos hBr, Tree.nodeAt_writeAt_valid _ _ _
      (by rw [Tree.validAddr_congr T1 t hT1len]; exact h.bv hBr),
      hT1ne B (fun hc => hxB hc.symm)]
  have hT3ne : ∀ q : Ptr, q ≠ some y → T3.nodeAt q = T2.nodeAt q := by
    intro q hq; rw [hT3, Tree.nodeAt_writeAt_ne _ _ _ _ hq]
  have hT3y : T3.nodeAt (some y) = { t.nodeAt (some y) with parent := P } := by
    rw [hT3, Tree.nodeAt_writeAt_valid _ _ _
      (by rw [Tree.validAddr_congr T2 t hT2len]; simp [Tree.validAddr, h.yv]),
      hT2ne (some y) (Or.inl hyB), hT1ne (some y) hyx]
  have hT3x : T3.nodeAt (some x) = { t.nodeAt (some x) with right := B } := by
    rw [hT3ne (some x) hxy', hT2ne (some x) (Or.inl hxB), hT1x]
  have hT4ne : ∀ q : Ptr, (q ≠ P ∨ P = t.nilP) → T4.nodeAt q = T3.nodeAt q := by
    intro q hq
    rw [hT4]; split
    · rfl
    · next hPr =>
      have hq' : q ≠ P := by
        rcases hq with hq | hq
        · exact hq
        · exact absurd hq hPr
      split <;> rw [Tree.nodeAt_writeAt_ne _ _ _ _ hq']
  have hT4p : P ≠ t.nilP → T4.nodeAt P =
      (if (t.nodeAt P).left = some x then
        { t.nodeAt P with left := some y }
       else
        { t.nodeAt P with right := some y }) := by
    intro hPr
    have hT3P : T3.nodeAt P = t.nodeAt P := by
      rw [hT3ne P h.py, hT2ne P (by
        rcases eq_or_ne B t.nilP with hb | hb
        · exact Or.inr hb
        · exact Or.inl (h.pb hb)), hT1ne P h.px]
    have hPv : T3.validAddr P = true := by
      rw [Tree.validAddr_congr T3 t hT3len]; exact h.pv hPr
    rw [hT4, if_neg hPr]
    split
    · rw [Tree.nodeAt_writeAt_valid _ _ _ hPv, hT3P]
    · rw [Tree.nodeAt_writeAt_valid _ _ _ hPv, hT3P]
  have hT5ne : ∀ q : Ptr, q ≠ some y → T5.nodeAt q = T4.nodeAt q := by
    intro q hq; rw [hT5, Tree.nodeAt_writeAt_ne _ _ _ _ hq]
  have hT5y : T5.nodeAt (some y) =
      { { t.nodeAt (some y) with parent := P } with left := some x } := by
    rw [hT5, Tree.nodeAt_writeAt_valid _ _ _
      (by rw [Tree.validAddr_congr T4 t hT4len]; simp [Tree.validAddr, h.yv]),
      hT4ne (some y) (Or.inl hyP), hT3y]
  have hvx5 : T5.validAddr (some x) = true := by
    rw [Tree.validAddr_congr T5 t hT5len]; simp [Tree.validAddr, h.xv]
  refine ⟨?_, ?_, ?_, ?_, ?_, ?_, ?_, ?_, ?_⟩
  · rw [Tree.nilP_writeAt, hT5nil]
  · rw [Tree.less_writeAt, hT5less]
  · rw [Tree.length_writeAt, hT5len]
  · rw [Tree.root_writeAt, hT5root]
  · rw [Tree.nodeAt_writeAt_valid _ _ _ hvx5, hT5ne (some x) hxy',
      hT4ne (some x) (Or.inl hxP), hT3x]
  · rw [Tree.nodeAt_writeAt_ne _ _ _ _ hyx, hT5y]
  · intro hBr
    rw [Tree.nodeAt_writeAt_ne _ _ _ _ h.bx, hT5ne B h.bby,
      hT4ne B (Or.inl (fun hc => h.pb hBr hc.symm)), hT3ne B h.bby, hT2b hBr]
  · intro hPr
    rw [Tree.nodeAt_writeAt_ne _ _ _ _ h.px, hT5ne P h.py, hT4p hPr]
  · intro q h1 h2 h3 h4
    rw [Tree.nodeAt_writeAt_ne _ _ _ _ h1, hT5ne q h2, hT4ne q h4,
      hT3ne q h2, hT2ne q h3, hT1ne q h1]

/-- Normal form of `RotateRight` at a node `x` (valid, not the sentinel)
whose left child is a real node `y`: mirror image of
`Tree.rotateLeft_eq`. -/
theorem Tree.rotateRight_eq (t : Tree K V M) (x y : Nat)
    (hxn : (some x : Ptr) ≠ t.nilP) (hyn : (some y : Ptr) ≠ t.nilP)
    (hxv : x < t.heap.length) (hxy : x ≠ y)
    (hxl : (t.nodeAt (some x)).left = some y)
    (hbx : (t.nodeAt (some y)).right ≠ some x)
    (hpx : (t.nodeAt (some x)).parent ≠ some x)
    (hpy : (t.nodeAt (some x)).parent ≠ some y)
    (hpb : (t.nodeAt (some y)).right ≠ t.nilP →
      (t.nodeAt (some x)).parent ≠ (t.nodeAt (some y)).right) :
    t.rotateRight (some x) =
      (let B := (t.nodeAt (some y)).right
       let P := (t.nodeAt (some x)).parent
       let T1 := t.writeAt (some x) (fun r => { r with left := B })
       let T2 := if B ≠ t.nilP then
           T1.writeAt B (fun r => { r with parent := some x })
         else T1
       let T3 := T2.writeAt (some y) (fun r => { r with parent := P })
       let T4 := if P = t.nilP then { T3 with root := some y }
         else if (t.nodeAt P).left = some x then
           T3.writeAt P (fun r => { r with left := some y })
         else
           T3.writeAt P (fun r => { r with right := some y })
       let T5 := T4.writeAt (some y) (fun r => { r with right := some x })
       T5.writeAt (some x) (fun r => { r with parent := some y })) := by
  have hguard : ¬ ((some x : Ptr) = none ∨ (some x : Ptr) = t.nilP ∨
      (t.nodeAt (some x)).left = t.nilP) := by
    push_neg
    exact ⟨by simp, hxn, by rw [hxl]; exact hyn⟩
  have hyx : (some y : Ptr) ≠ some x := fun hc => hxy (Option.some.inj hc).symm
  have hxy' : (some x : Ptr) ≠ some y := fun hc => hxy (Option.some.inj hc)
  have hxB : (some x : Ptr) ≠ (t.nodeAt (some y)).right := fun hc => hbx hc.symm
  have hxvalid : t.validAddr (some x) = true := by
    simp [Tree.validAddr, hxv]
  conv_lhs => rw [Tree.rotateRight]
  rw [if_neg hguard, hxl]
  simp only [Tree.setLeftPtr, Tree.setRightPtr, Tree.setParentPtr]
  rw [t.nodeAt_writeAt_ne (some x) (some y) _ hyx]
  simp only [Tree.nilP_writeAt]
  have hr2 : ((t.writeAt (some x)
      (fun r => { r with left := (t.nodeAt (some y)).right })).nodeAt
        (some x)).parent = (t.nodeAt (some x)).parent := by
    rw [t.nodeAt_writeAt_valid (some x) _ hxvalid]
  by_cases hB : (t.nodeAt (some y)).right = t.nilP
  · have hBn : ¬ ((t.nodeAt (some y)).right ≠ t.nilP) := fun hc => hc hB
    rw [if_neg hBn]
    rw [Tree.nodeAt_writeAt_ne _ (some y) (some x) _ hxy']
    rw [hr2]
    rw [Tree.nodeAt_writeAt_ne _ (some y)
      ((t.nodeAt (some x)).parent) _ hpy]
    rw [Tree.nodeAt_writeAt_ne _ (some x)
      ((t.nodeAt (some x)).parent) _ hpx]
    simp only [Tree.nilP_writeAt]
  · have hBne : (t.nodeAt (some y)).right ≠ t.nilP := hB
    rw [if_pos hBne]
    rw [Tree.nodeAt_writeAt_ne _ (some y) (some x) _ hxy']
    rw [Tree.nodeAt_writeAt_ne _ ((t.nodeAt (some y)).right) (some x) _ hxB]
    rw [hr2]
    rw [Tree.nodeAt_writeAt_ne _ (some y)
      ((t.nodeAt (some x)).parent) _ hpy]
    rw [Tree.nodeAt_writeAt_ne _ ((t.nodeAt (some y)).right)
      ((t.nodeAt (some x)).parent) _ (hpb hBne)]
    rw [Tree.nodeAt_writeAt_ne _ (some x)
      ((t.nodeAt (some x)).parent) _ hpx]
    simp only [Tree.nilP_writeAt]

/-- Mirror of `RotLCtx` for a right rotation at `x` with left child `y`. -/
structure RotRCtx (t : Tree K V M) (x y : Nat) : Prop where
  xn : (some x : Ptr) ≠ t.nilP
  yn : (some y : Ptr) ≠ t.nilP
  xv : x < t.heap.length
  yv : y < t.heap.length
  xy : x ≠ y
  xl : (t.nodeAt (some x)).left = some y
  ypar : (t.nodeAt (some y)).parent = some x
  bx : (t.nodeAt (some y)).right ≠ some x
  bby : (t.nodeAt (some y)).right ≠ some y
  bv : (t.nodeAt (some y)).right ≠ t.nilP →
    t.validAddr ((t.nodeAt (some y)).right) = true
  bpar : (t.nodeAt (some y)).right ≠ t.nilP →
    (t.nodeAt ((t.nodeAt (some y)).right)).parent = some y
  px : (t.nodeAt (some x)).parent ≠ some x
  py : (t.nodeAt (some x)).parent ≠ some y
  pb : (t.nodeAt (some y)).right ≠ t.nilP →
    (t.nodeAt (some x)).parent ≠ (t.nodeAt (some y)).right
  pv : (t.nodeAt (some x)).parent ≠ t.nilP →
    t.validAddr ((t.nodeAt (some x)).parent) = true
  proot : (t.nodeAt (some x)).parent = t.nilP → t.root = some x
  pchild : (t.nodeAt (some x)).parent ≠ t.nilP →
    ((t.nodeAt ((t.nodeAt (some x)).parent)).left = some x ∨
     (t.nodeAt ((t.nodeAt (some x)).parent)).right = some x)
  plny : (t.nodeAt (some x)).parent ≠ t.nilP →
    (t.nodeAt ((t.nodeAt (some x)).parent)).left ≠ some y

/-- Characterization of `RotateRight` under `RotRCtx`: mirror image of
`Tree.rotateLeft_spec`. -/
theorem Tree.rotateRight_spec (t : Tree K V M) (x y : Nat) (h : RotRCtx t x y) :
    (t.rotateRight (some x)).nilP = t.nilP ∧
    (t.rotateRight (some x)).less = t.less ∧
    (t.rotateRight (some x)).heap.length = t.heap.length ∧
    (t.rotateRight (some x)).root =
      (if (t.nodeAt (some x)).parent = t.nilP then some y else t.root) ∧
    (t.rotateRight (some x)).nodeAt (some x) =
      { { t.nodeAt (some x) with left := (t.nodeAt (some y)).right }
          with parent := some y } ∧
    (t.rotateRight (some x)).nodeAt (some y) =
      { { t.nodeAt (some y) with right := some x }
          with parent := (t.nodeAt (some x)).parent } ∧
    ((t.nodeAt (some y)).right ≠ t.nilP →
      (t.rotateRight (some x)).nodeAt ((t.nodeAt (some y)).right) =
        { t.nodeAt ((t.nodeAt (some y)).right) with parent := some x }) ∧
    ((t.nodeAt (some x)).parent ≠ t.nilP →
      (t.rotateRight (some x)).nodeAt ((t.nodeAt (some x)).parent) =
        (if (t.nodeAt ((t.nodeAt (some x)).parent)).left = some x then
          { t.nodeAt ((t.nodeAt (some x)).parent) with left := some y }
         else
          { t.nodeAt ((t.nodeAt (some x)).parent) with right := some y })) ∧
    (∀ q : Ptr, q ≠ some x → q ≠ some y →
      (q ≠ (t.nodeAt (some y)).right ∨ (t.nodeAt (some y)).right = t.nilP) →
      (q ≠ (t.nodeAt (some x)).parent ∨ (t.nodeAt (some x)).parent = t.nilP) →
      (t.rotateRight (some x)).nodeAt q = t.nodeAt q) := by
  have heq := t.rotateRight_eq x y h.xn h.yn h.xv h.xy h.xl h.bx h.px h.py h.pb
  have hxB : (some x : Ptr) ≠ (t.nodeAt (some y)).right :=
    fun hc => h.bx hc.symm
  have hyB : (some y : Ptr) ≠ (t.nodeAt (some y)).right :=
    fun hc => h.bby hc.symm
  have hyx : (some y : Ptr) ≠ some x := fun hc => h.xy (Option.some.inj hc).symm
  have hxy' : (some x : Ptr) ≠ some y := fun hc => h.xy (Option.some.inj hc)
  have hxP : (some x : Ptr) ≠ (t.nodeAt (some x)).parent :=
    fun hc => h.px hc.symm
  have hyP : (some y : Ptr) ≠ (t.nodeAt (some x)).parent :=
    fun hc => h.py hc.symm
  rw [heq]
  simp only []
  set B := (t.nodeAt (some y)).right with hBdef
  set P := (t.nodeAt (some x)).parent with hPdef
  set T1 := t.writeAt (some x) (fun r => { r with left := B }) with hT1
  set T2 := (if B ≠ t.nilP then
      T1.writeAt B (fun r => { r with parent := some x })
    else T1) with hT2
  set T3 := T2.writeAt (some y) (fun r => { r with parent := P }) with hT3
  set T4 := (if P = t.nilP then { T3 with root := some y }
    else if (t.nodeAt P).left = some x then
      T3.writeAt P (fun r => { r with left := some y })
    else
      T3.writeAt P (fun r => { r with right := some y })) with hT4
  set T5 := T4.writeAt (some y) (fun r => { r with right := some x }) with hT5
  have hT1len : T1.heap.length = t.heap.length := by rw [hT1]; simp
  have hT2len : T2.heap.length = t.heap.length := by
    rw [hT2]; split <;> simp [hT1len]
  have hT3len : T3.heap.length = t.heap.length := by rw [hT3]; simp [hT2len]
  have hT4len : T4.heap.length = t.heap.length := by
    rw [hT4]; split
    · simp [hT3len]
    · split <;> simp [hT3len]
  have hT5len : T5.heap.length = t.heap.length := by rw [hT5]; simp [hT4len]
  have hT1nil : T1.nilP = t.nilP := by rw [hT1]; simp
  have hT2nil : T2.nilP = t.nilP := by rw [hT2]; split <;> simp [hT1nil]
  have hT3nil : T3.nilP = t.nilP := by rw [hT3]; simp [hT2nil]
  have hT4nil : T4.nilP = t.nilP := by
    rw [hT4]; split
    · simp [hT3nil]
    · split <;> simp [hT3nil]
  have hT5nil : T5.nilP = t.nilP := by rw [hT5]; simp [hT4nil]
  have hT1less : T1.less = t.less := by rw [hT1]; simp
  have hT2less : T2.less = t.less := by rw [hT2]; split <;> simp [hT1less]
  have hT3less : T3.less = t.less := by rw [hT3]; simp [hT2less]
  have hT4less : T4.less = t.less := by
    rw [hT4]; split
    · simp [hT3less]
    · split <;> simp [hT3less]
  have hT5less : T5.less = t.less := by rw [hT5]; simp [hT4less]
  have hT1root : T1.root = t.root := by rw [hT1]; simp
  have hT2root : T2.root = t.root := by rw [hT2]; split <;> simp [hT1root]
  have hT3root : T3.root = t.root := by rw [hT3]; simp [hT2root]
  have hT4root : T4.root = (if P = t.nilP then some y else t.root) := by
    rw [hT4]; split
    · simp
    · split <;> simp [hT3root]
  have hT5root : T5.root = (if P = t.nilP then some y else t.root) := by
    rw [hT5]; simp [hT4root]
  have hT1x : T1.nodeAt (some x) = { t.nodeAt (some x) with left := B } := by
    rw [hT1, t.nodeAt_writeAt_self x _ h.xv]
  have hT1ne : ∀ q : Ptr, q ≠ some x → T1.nodeAt q = t.nodeAt q := by
    intro q hq; rw [hT1, Tree.nodeAt_writeAt_ne _ _ _ _ hq]
  have hT2ne : ∀ q : Ptr, (q ≠ B ∨ B = t.nilP) → T2.nodeAt q = T1.nodeAt q := by
    intro q hq
    rw [hT2]; split
    · rcases hq with hq | hq
      · rw [Tree.nodeAt_writeAt_ne _ _ _ _ hq]
      · next hc => exact absurd hq hc
    · rfl
  have hT2b : B ≠ t.nilP → T2.nodeAt B = { t.nodeAt B with parent := some x } := by
    intro hBr
    rw [hT2, if_pos hBr, Tree.nodeAt_writeAt_valid _ _ _
      (by rw [Tree.validAddr_congr T1 t hT1len]; exact h.bv hBr),
      hT1ne B (fun hc => hxB hc.symm)]
  have hT3ne : ∀ q : Ptr, q ≠ some y → T3.nodeAt q = T2.nodeAt q := by
    intro q hq; rw [hT3, Tree.nodeAt_writeAt_ne _ _ _ _ hq]
  have hT3y : T3.nodeAt (some y) = { t.nodeAt (some y) with parent := P } := by
    rw [hT3, Tree.nodeAt_writeAt_valid _ _ _
      (by rw [Tree.validAddr_congr T2 t hT2len]; simp [Tree.validAddr, h.yv]),
      hT2ne (some y) (Or.inl hyB), hT1ne (some y) hyx]
  have hT3x : T3.nodeAt (some x) = { t.nodeAt (some x) with left := B } := by
    rw [hT3ne (some x) hxy', hT2ne (some x) (Or.inl hxB), hT1x]
  have hT4ne : ∀ q : Ptr, (q ≠ P ∨ P = t.nilP) → T4.nodeAt q = T3.nodeAt q := by
    intro q hq
    rw [hT4]; split
    · rfl
    · next hPr =>
      have hq' : q ≠ P := by
        rcases hq with hq | hq
        · exact hq
        · exact absurd hq hPr
      split <;> rw [Tree.nodeAt_writeAt_ne _ _ _ _ hq']
  have hT4p : P ≠ t.nilP → T4.nodeAt P =
      (if (t.nodeAt P).left = some x then
        { t.nodeAt P with left := some y }
       else
        { t.nodeAt P with right := some y }) := by
    intro hPr
    have hT3P : T3.nodeAt P = t.nodeAt P := by
      rw [hT3ne P h.py, hT2ne P (by
        rcases eq_or_ne B t.nilP with hb | hb
        · exact Or.inr hb
        · exact Or.inl (h.pb hb)), hT1ne P h.px]
    have hPv : T3.validAddr P = true := by
      rw [Tree.validAddr_congr T3 t hT3len]; exact h.pv hPr
    rw [hT4, if_neg hPr]
    split
    · rw [Tree.nodeAt_writeAt_valid _ _ _ hPv, hT3P]
    · rw [Tree.nodeAt_writeAt_valid _ _ _ hPv, hT3P]
  have hT5ne : ∀ q : Ptr, q ≠ some y → T5.nodeAt q = T4.nodeAt q := by
    intro q hq; rw [hT5, Tree.nodeAt_writeAt_ne _ _ _ _ hq]
  have hT5y : T5.nodeAt (some y) =
      { { t.nodeAt (some y) with parent := P } with right := some x } := by
    rw [hT5, Tree.nodeAt_writeAt_valid _ _ _
      (by rw [Tree.validAddr_congr T4 t hT4len]; simp [Tree.validAddr, h.yv]),
      hT4ne (some y) (Or.inl hyP), hT3y]
  have hvx5 : T5.validAddr (some x) = true := by
    rw [Tree.validAddr_congr T5 t hT5len]; simp [Tree.validAddr, h.xv]
  refine ⟨?_, ?_, ?_, ?_, ?_, ?_, ?_, ?_, ?_⟩
  · rw [Tree.nilP_writeAt, hT5nil]
  · rw [Tree.less_writeAt, hT5less]
  · rw [Tree.length_writeAt, hT5len]
  · rw [Tree.root_writeAt, hT5root]
  · rw [Tree.nodeAt_writeAt_valid _ _ _ hvx5, hT5ne (some x) hxy',
      hT4ne (some x) (Or.inl hxP), hT3x]
  · rw [Tree.nodeAt_writeAt_ne _ _ _ _ hyx, hT5y]
  · intro hBr
    rw [Tree.nodeAt_writeAt_ne _ _ _ _ h.bx, hT5ne B h.bby,
      hT4ne B (Or.inl (fun hc => h.pb hBr hc.symm)), hT3ne B h.bby, hT2b hBr]
  · intro hPr
    rw [Tree.nodeAt_writeAt_ne _ _ _ _ h.px, hT5ne P h.py, hT4p hPr]
  · intro q h1 h2 h3 h4
    rw [Tree.nodeAt_writeAt_ne _ _ _ _ h1, hT5ne q h2, hT4ne q h4,
      hT3ne q h2, hT2ne q h3, hT1ne q h1]

theorem Tree.heap_eq_of_nodeAt (t1 t2 : Tree K V M)
    (hlen : t1.heap.length = t2.heap.length)
    (h : ∀ c : Nat, c < t2.heap.length →
      t1.nodeAt (some c) = t2.nodeAt (some c)) :
    t1.heap = t2.heap := by
  refine Array.ext.extAux _ _ hlen ?_
  intro i h1 h2
  have hi := h i h2
  simp only [Tree.nodeAt] at hi
  rw [List.getD_eq_getElem t1.heap default h1,
    List.getD_eq_getElem t2.heap default h2] at hi
  exact hi

theorem Tree.eq_of_proj (t1 t2 : Tree K V M) (h1 : t1.root = t2.root)
    (h2 : t1.less = t2.less) (h3 : t1.heap = t2.heap)
    (h4 : t1.nilP = t2.nilP) : t1 = t2 := by
  cases t1; cases t2; simp_all

/-- Rotation invertibility: under the local well-formedness context,
`RotateLeft(x)` followed by `RotateRight` at `x`'s new parent `y`
restores the exact prior tree state. -/
theorem Tree.rotateLeft_rotateRight_inverse (t : Tree K V M) (x y : Nat)
    (h : RotLCtx t x y) :
    (t.rotateLeft (some x)).rotateRight (some y) = t := by
  obtain ⟨Fnil, Fless, Flen, Froot, Fx, Fy, Fb, Fp, Ffr⟩ := t.rotateLeft_spec x y h
  have hyx : (some y : Ptr) ≠ some x := fun hc => h.xy (Option.some.inj hc).symm
  have hxy' : (some x : Ptr) ≠ some y := fun hc => h.xy (Option.some.inj hc)
  set B := (t.nodeAt (some y)).left with hBdef
  set P := (t.nodeAt (some x)).parent with hPdef
  have hBr' : ((t.rotateLeft (some x)).nodeAt (some x)).right = B := by
    rw [Fx]
  have hPr' : ((t.rotateLeft (some x)).nodeAt (some y)).parent = P := by
    rw [Fy]
  have hLft : ((t.rotateLeft (some x)).nodeAt (some y)).left = some x := by
    rw [Fy]
  have hPar : ((t.rotateLeft (some x)).nodeAt (some x)).parent = some y := by
    rw [Fx]
  have hctx : RotRCtx (t.rotateLeft (some x)) y x := by
    refine ⟨?_, ?_, ?_, ?_, ?_, ?_, ?_, ?_, ?_, ?_, ?_, ?_, ?_, ?_, ?_, ?_,
      ?_, ?_⟩
    · rw [Fnil]; exact h.yn
    · rw [Fnil]; exact h.xn
    · rw [Flen]; exact h.yv
    · rw [Flen]; exact h.xv
    · exact fun hc => h.xy hc.symm
    · exact hLft
    · exact hPar
    · rw [hBr']; exact h.bby
    · rw [hBr']; exact h.bx
    · intro hc
      rw [hBr'] at hc ⊢
      rw [Fnil] at hc
      rw [Tree.validAddr_congr _ t Flen]
      exact h.bv hc
    · intro hc
      rw [hBr'] at hc ⊢
      rw [Fnil] at hc
      rw [Fb hc]
    · rw [hPr']; exact h.py
    · rw [hPr']; exact h.px
    · intro hc
      rw [hBr'] at hc ⊢
      rw [Fnil] at hc
      rw [hPr']
      exact h.pb hc
    · intro hc
      rw [hPr'] at hc ⊢
      rw [Fnil] at hc
      rw [Tree.validAddr_congr _ t Flen]
      exact h.pv hc
    · intro hc
      rw [hPr'] at hc
      rw [Fnil] at hc
      rw [Froot, if_pos hc]
    · intro hc
      rw [hPr'] at hc ⊢
      rw [Fnil] at hc
      rw [Fp hc]
      split
      · exact Or.inl rfl
      · exact Or.inr rfl
    · intro hc
      rw [hPr'] at hc ⊢
      rw [Fnil] at hc
      rw [Fp hc]
      split
      · exact fun hc2 => hyx hc2
      · next hne => exact hne
  obtain ⟨Gnil, Gless, Glen, Groot, Gy, Gx, Gb, Gp, Gfr⟩ :=
    (t.rotateLeft (some x)).rotateRight_spec y x hctx
  rw [hPr', Fnil] at Groot
  rw [hBr'] at Gy
  rw [hPr'] at Gx
  rw [hBr', Fnil] at Gb
  rw [hPr', Fnil] at Gp
  rw [hBr', hPr', Fnil] at Gfr
  refine Tree.eq_of_proj _ _ ?_ ?_ ?_ ?_
  · rw [Groot]
    rcases eq_or_ne P t.nilP with hp | hp
    · rw [if_pos hp]
      exact (h.proot hp).symm
    · rw [if_neg hp, Froot, if_neg hp]
  · rw [Gless, Fless]
  · refine Tree.heap_eq_of_nodeAt _ t (by rw [Glen, Flen]) ?_
    intro c hc
    by_cases hcx : (some c : Ptr) = some x
    · rw [hcx, Gx, Fx, ← h.xr]
    · by_cases hcy : (some c : Ptr) = some y
      · rw [hcy, Gy, Fy, ← h.ypar]
      · by_cases hcB : (some c : Ptr) = B
        · rcases eq_or_ne B t.nilP with hbn | hbn
          · -- the sentinel: never written by either rotation
            rw [Gfr (some c) hcy hcx (Or.inr hbn) ?hp,
              Ffr (some c) hcx hcy (Or.inr hbn) ?hp2]
            case hp =>
              rcases eq_or_ne P t.nilP with hpn | hpn
              · exact Or.inr hpn
              · exact Or.inl (fun hcc => hpn (by rw [← hcc, hcB, hbn]))
            case hp2 =>
              rcases eq_or_ne P t.nilP with hpn | hpn
              · exact Or.inr hpn
              · exact Or.inl (fun hcc => hpn (by rw [← hcc, hcB, hbn]))
          · rw [hcB, Gb hbn, Fb hbn, ← h.bpar hbn]
        · by_cases hcP : (some c : Ptr) = P
          · rcases eq_or_ne P t.nilP with hpn | hpn
            · rw [Gfr (some c) hcy hcx (Or.inl hcB) (Or.inr hpn),
                Ffr (some c) hcx hcy (Or.inl hcB) (Or.inr hpn)]
            · rw [hcP, Gp hpn, Fp hpn]
              by_cases horig : (t.nodeAt P).left = some x
              · rw [if_pos horig]
                have hcond :
                    ({ t.nodeAt P with left := some y } : NodeRec K V M).left =
                      some y := rfl
                rw [if_pos hcond, ← horig]
              · rw [if_neg horig]
                have hcond :
                    ¬ (({ t.nodeAt P with right := some y } :
                        NodeRec K V M).left = some y) := by
                  show ¬ ((t.nodeAt P).left = some y)
                  exact h.plny hpn
                have hside : (t.nodeAt P).right = some x := by
                  rcases h.pchild hpn with hl | hr
                  · exact absurd hl horig
                  · exact hr
                rw [if_neg hcond, ← hside]
          · rw [Gfr (some c) hcy hcx (Or.inl hcB) (Or.inl hcP),
              Ffr (some c) hcx hcy (Or.inl hcB) (Or.inl hcP)]
  · rw [Gnil, Fnil]

/-- Replace the subtree whose root address is `x` (unique under `Nodup`). -/
def ITree.replaceAt : ITree → Nat → ITree → ITree
  | .leaf, _, _ => .leaf
  | .node l a r, x, S =>
    if a = x then S else .node (l.replaceAt x S) a (r.replaceAt x S)

/-- Does `S` occur as a structural subtree of the second argument? -/
def ITree.subB (S : ITree) : ITree → Bool
  | .leaf => decide (ITree.leaf = S)
  | .node l a r => decide (ITree.node l a r = S) || S.subB l || S.subB r

theorem ITree.subB_self (S : ITree) : S.subB S = true := by
  cases S <;> simp [ITree.subB]

theorem ITree.subB_addrs {S T : ITree} (h : S.subB T = true) :
    ∀ c ∈ S.addrs, c ∈ T.addrs := by
  induction T with
  | leaf =>
    intro c hc
    have : ITree.leaf = S := by simpa [ITree.subB] using h
    rw [← this] at hc
    simpa [ITree.addrs] using hc
  | node l a r ihl ihr =>
    intro c hc
    simp only [ITree.subB, Bool.or_eq_true, decide_eq_true_eq] at h
    rcases h with (h | h) | h
    · rw [← h] at hc; exact hc
    · simp [ITree.addrs, ihl h c hc]
    · simp [ITree.addrs, ihr h c hc]

theorem ITree.subB_infix {S T : ITree} (h : S.subB T = true) :
    S.addrs <:+: T.addrs := by
  induction T with
  | leaf =>
    have : ITree.leaf = S := by simpa [ITree.subB] using h
    rw [← this]
  | node l a r ihl ihr =>
    simp only [ITree.subB, Bool.or_eq_true, decide_eq_true_eq] at h
    rcases h with (h | h) | h
    · rw [← h]
    · refine (ihl h).trans ?_
      exact ⟨[], a :: r.addrs, by simp [ITree.addrs]⟩
    · refine (ihr h).trans ?_
      exact ⟨l.addrs ++ [a], [], by simp [ITree.addrs]⟩

theorem ITree.nodup_of_subB {S T : ITree} (h : S.subB T = true)
    (hnd : T.addrs.Nodup) : S.addrs.Nodup :=
  (ITree.subB_infix h).sublist.nodup hnd

theorem ITree.replaceAt_of_not_mem {T : ITree} {x : Nat} {S : ITree}
    (h : x ∉ T.addrs) : T.replaceAt x S = T := by
  induction T with
  | leaf => rfl
  | node l a r ihl ihr =>
    simp only [ITree.addrs, List.mem_append, List.mem_cons] at h
    push_neg at h
    obtain ⟨h1, h2, h3⟩ := h
    simp [ITree.replaceAt, Ne.symm h2, ihl h1, ihr h3]

/-- A frame rule for the representation check: if every node of a subtree
is unchanged, the subtree remains represented. -/
theorem Tree.rep_frame (t t' : Tree K V M)
    (hnil : t'.nilP = t.nilP) (hlen : t'.heap.length = t.heap.length) :
    ∀ (W : ITree) (par p : Ptr),
      t.repB par p W = true →
      (∀ c ∈ W.addrs, t'.nodeAt (some c) = t.nodeAt (some c)) →
      t'.repB par p W = true := by
  intro W
  induction W with
  | leaf =>
    intro par p hrep _
    simpa [Tree.repB, hnil] using hrep
  | node l a r ihl ihr =>
    intro par p hrep hsame
    simp only [Tree.repB, Bool.and_eq_true, decide_eq_true_eq] at hrep ⊢
    obtain ⟨⟨⟨⟨⟨hp, hnn⟩, hl0⟩, hpar⟩, hl⟩, hr⟩ := hrep
    have ha : t'.nodeAt (some a) = t.nodeAt (some a) :=
      hsame a (by simp [ITree.addrs])
    refine ⟨⟨⟨⟨⟨hp, by rw [hnil]; exact hnn⟩, by rw [hlen]; exact hl0⟩,
      by rw [ha]; exact hpar⟩, ?_⟩, ?_⟩
    · rw [ha]
      exact ihl _ _ hl (fun c hc => hsame c (by simp [ITree.addrs, hc]))
    · rw [ha]
      exact ihr _ _ hr (fun c hc => hsame c (by simp [ITree.addrs, hc]))

/-- A frame rule for the key sequence. -/
theorem Tree.keys_frame (t t' : Tree K V M) :
    ∀ (W : ITree),
      (∀ c ∈ W.addrs, (t'.nodeAt (some c)).key = (t.nodeAt (some c)).key) →
      t'.keysOf W = t.keysOf W := by
  intro W
  induction W with
  | leaf => intro _; rfl
  | node l a r ihl ihr =>
    intro hsame
    simp only [Tree.keysOf]
    rw [hsame a (by simp [ITree.addrs]),
      ihl (fun c hc => hsame c (by simp [ITree.addrs, hc])),
      ihr (fun c hc => hsame c (by simp [ITree.addrs, hc]))]

/-- Locating a node-shaped subtree inside a represented tree: the subtree
is itself represented at its root address, and it is either the whole tree
or a child of a represented parent node. -/
theorem Tree.rep_sub (t : Tree K V M) (sl sr : ITree) (sa : Nat) :
    ∀ (T : ITree) (par p : Ptr), t.repB par p T = true →
      (ITree.node sl sa sr).subB T = true →
      ∃ par', t.repB par' (some sa) (ITree.node sl sa sr) = true ∧
        ((par' = par ∧ T = ITree.node sl sa sr) ∨
         (∃ (pa : Nat) (lU rU : ITree) (ppar : Ptr),
            par' = some pa ∧
            t.repB ppar (some pa) (ITree.node lU pa rU) = true ∧
            (ITree.node lU pa rU).subB T = true ∧
            (ITree.node sl sa sr = lU ∨ ITree.node sl sa sr = rU))) := by
  intro T
  induction T with
  | leaf =>
    intro par p _ hsub
    simp [ITree.subB] at hsub
  | node l a r ihl ihr =>
    intro par p hrep hsub
    have hrep' := hrep
    simp only [Tree.repB, Bool.and_eq_true, decide_eq_true_eq] at hrep'
    obtain ⟨⟨⟨⟨⟨hp, hnn⟩, hl0⟩, hpar⟩, hl⟩, hr⟩ := hrep'
    simp only [ITree.subB, Bool.or_eq_true, decide_eq_true_eq] at hsub
    rcases hsub with (heq | hsubl) | hsubr
    · cases heq
      exact ⟨par, hp ▸ hrep, Or.inl ⟨rfl, rfl⟩⟩
    · obtain ⟨par', hrepS, hcase⟩ := ihl _ _ hl hsubl
      refine ⟨par', hrepS, Or.inr ?_⟩
      rcases hcase with ⟨hpar', heqL⟩ | ⟨pa, lU, rU, ppar, h1, h2, h3, h4⟩
      · exact ⟨a, l, r, par, hpar', hp ▸ hrep,
          ITree.subB_self _, Or.inl heqL.symm⟩
      · exact ⟨pa, lU, rU, ppar, h1, h2, by simp [ITree.subB, h3], h4⟩
    · obtain ⟨par', hrepS, hcase⟩ := ihr _ _ hr hsubr
      refine ⟨par', hrepS, Or.inr ?_⟩
      rcases hcase with ⟨hpar', heqR⟩ | ⟨pa, lU, rU, ppar, h1, h2, h3, h4⟩
      · exact ⟨a, l, r, par, hpar', hp ▸ hrep,
          ITree.subB_self _, Or.inr heqR.symm⟩
      · exact ⟨pa, lU, rU, ppar, h1, h2, by simp [ITree.subB, h3], h4⟩

/-- When a node-shaped subtree sits strictly inside a represented tree,
its root's parent pointer names an address of that tree. -/
theorem Tree.rep_sub_parent_mem (t : Tree K V M) (sl sr : ITree) (sa : Nat) :
    ∀ (W : ITree) (par p : Ptr), t.repB par p W = true →
      (ITree.node sl sa sr).subB W = true →
      W ≠ ITree.node sl sa sr →
      ∃ pa : Nat, (t.nodeAt (some sa)).parent = some pa ∧ pa ∈ W.addrs := by
  intro W
  induction W with
  | leaf =>
    intro par p _ hsub _
    simp [ITree.subB] at hsub
  | node l a r ihl ihr =>
    intro par p hrep hsub hne
    simp only [Tree.repB, Bool.and_eq_true, decide_eq_true_eq] at hrep
    obtain ⟨⟨⟨⟨⟨-, -⟩, -⟩, -⟩, hl⟩, hr⟩ := hrep
    simp only [ITree.subB, Bool.or_eq_true, decide_eq_true_eq] at hsub
    rcases hsub with (heq | hsubl) | hsubr
    · exact absurd heq hne
    · by_cases hlS : l = ITree.node sl sa sr
      · rw [hlS] at hl
        simp only [Tree.repB, Bool.and_eq_true, decide_eq_true_eq] at hl
        exact ⟨a, hl.1.1.2, by simp [ITree.addrs]⟩
      · obtain ⟨pa, hpa, hmem⟩ := ihl _ _ hl hsubl hlS
        exact ⟨pa, hpa, by simp [ITree.addrs, hmem]⟩
    · by_cases hrS : r = ITree.node sl sa sr
      · rw [hrS] at hr
        simp only [Tree.repB, Bool.and_eq_true, decide_eq_true_eq] at hr
        exact ⟨a, hr.1.1.2, by simp [ITree.addrs]⟩
      · obtain ⟨pa, hpa, hmem⟩ := ihr _ _ hr hsubr hrS
        exact ⟨pa, hpa, by simp [ITree.addrs, hmem]⟩

/-- A represented, address-distinct tree containing a node `x` with a real
right child `y` satisfies all the local well-formedness facts the rotation
characterisation needs. -/
theorem Tree.rep_rotLCtx (t : Tree K V M) (T l rl rr : ITree) (x y : Nat)
    (hrep : t.repB t.nilP t.root T = true)
    (hnd : T.addrs.Nodup)
    (hsub : (ITree.node l x (ITree.node rl y rr)).subB T = true) :
    RotLCtx t x y := by
  obtain ⟨par, hrepS, hcase⟩ :=
    t.rep_sub l (ITree.node rl y rr) x T t.nilP t.root hrep hsub
  have hS := hrepS
  simp only [Tree.repB, Bool.and_eq_true, decide_eq_true_eq] at hS
  obtain ⟨⟨⟨⟨⟨-, hxn⟩, hxv⟩, hxpar⟩, hlrep⟩,
    ⟨⟨⟨⟨hxr, hyn⟩, hyv⟩, hypar⟩, hrlrep⟩, hrrrep⟩ := hS
  have hndS := ITree.nodup_of_subB hsub hnd
  have hnd1 : (x :: (rl.addrs ++ y :: rr.addrs)).Nodup :=
    (List.sublist_append_right _ _).nodup (by simpa [ITree.addrs] using hndS)
  obtain ⟨hxnotin, hnd2⟩ := List.nodup_cons.mp hnd1
  have hxy : x ≠ y := fun hc => hxnotin (by simp [hc])
  have hxrl : x ∉ rl.addrs := fun hc => hxnotin (by simp [hc])
  have hyrl : y ∉ rl.addrs := by
    intro hc
    rcases List.nodup_append.mp hnd2 with ⟨-, -, hdisj⟩
    exact hdisj hc (by simp)
  have hbfacts : (t.nodeAt (some y)).left = t.nilP ∨
      ∃ b2 : Nat, (t.nodeAt (some y)).left = some b2 ∧ b2 ∈ rl.addrs ∧
        b2 < t.heap.length ∧ (t.nodeAt (some b2)).parent = some y := by
    cases rl with
    | leaf =>
      left
      simpa [Tree.repB] using hrlrep
    | node l2 b2 r2 =>
      right
      simp only [Tree.repB, Bool.and_eq_true, decide_eq_true_eq] at hrlrep
      obtain ⟨⟨⟨⟨⟨hb2, -⟩, hb2v⟩, hb2par⟩, -⟩, -⟩ := hrlrep
      exact ⟨b2, hb2, by simp [ITree.addrs], hb2v, hb2par⟩
  have hbx : (t.nodeAt (some y)).left ≠ some x := by
    rcases hbfacts with hb0 | ⟨b2, hb2, hb2mem, -, -⟩
    · rw [hb0]; exact Ne.symm hxn
    · rw [hb2]
      exact fun hc => hxrl (Option.some.inj hc ▸ hb2mem)
  have hbby : (t.nodeAt (some y)).left ≠ some y := by
    rcases hbfacts with hb0 | ⟨b2, hb2, hb2mem, -, -⟩
    · rw [hb0]; exact Ne.symm hyn
    · rw [hb2]
      exact fun hc => hyrl (Option.some.inj hc ▸ hb2mem)
  have hbv : (t.nodeAt (some y)).left ≠ t.nilP →
      t.validAddr ((t.nodeAt (some y)).left) = true := by
    intro hbne
    rcases hbfacts with hb0 | ⟨b2, hb2, -, hb2v, -⟩
    · exact absurd hb0 hbne
    · rw [hb2]; simp [Tree.validAddr, hb2v]
  have hbpar : (t.nodeAt (some y)).left ≠ t.nilP →
      (t.nodeAt ((t.nodeAt (some y)).left)).parent = some y := by
    intro hbne
    rcases hbfacts with hb0 | ⟨b2, hb2, -, -, hb2par⟩
    · exact absurd hb0 hbne
    · rw [hb2]; exact hb2par
  have hxS : x ∈ (ITree.node l x (ITree.node rl y rr)).addrs := by
    simp [ITree.addrs]
  have hyS : y ∈ (ITree.node l x (ITree.node rl y rr)).addrs := by
    simp [ITree.addrs]
  rcases hcase with ⟨hparnil, hTeq⟩ |
    ⟨pa, lU, rU, ppar, hpar', hrepU, hsubU, hSU⟩
  · refine ⟨hxn, hyn, hxv, hyv, hxy, hxr, hypar, hbx, hbby, hbv, hbpar,
      ?_, ?_, ?_, ?_, ?_, ?_, ?_⟩
    · rw [hxpar, hparnil]; exact Ne.symm hxn
    · rw [hxpar, hparnil]; exact Ne.symm hyn
    · intro hbne
      rw [hxpar, hparnil]; exact Ne.symm hbne
    · intro hc
      rw [hxpar] at hc
      exact absurd hparnil hc
    · intro _
      have hroot := hrep
      rw [hTeq] at hroot
      simp only [Tree.repB, Bool.and_eq_true, decide_eq_true_eq] at hroot
      exact hroot.1.1.1.1.1
    · intro hc
      rw [hxpar] at hc
      exact absurd hparnil hc
    · intro hc
      rw [hxpar] at hc
      exact absurd hparnil hc
  · have hU := hrepU
    simp only [Tree.repB, Bool.and_eq_true, decide_eq_true_eq] at hU
    obtain ⟨⟨⟨⟨⟨-, hpan⟩, hpav⟩, -⟩, hULrep⟩, hURrep⟩ := hU
    have hndU := ITree.nodup_of_subB hsubU hnd
    rcases List.nodup_append.mp (by simpa [ITree.addrs] using hndU) with
      ⟨-, hndR, hdisj⟩
    have hpaR : pa ∉ rU.addrs := (List.nodup_cons.mp hndR).1
    have hpaL : pa ∉ lU.addrs := fun hc => hdisj hc (by simp)
    have hdisjLR : ∀ c ∈ lU.addrs, c ∉ rU.addrs :=
      fun c hc hc' => hdisj hc (by simp [hc'])
    have hpaS : pa ∉ (ITree.node l x (ITree.node rl y rr)).addrs := by
      rcases hSU with h | h
      · rw [h]; exact hpaL
      · rw [h]; exact hpaR
    refine ⟨hxn, hyn, hxv, hyv, hxy, hxr, hypar, hbx, hbby, hbv, hbpar,
      ?_, ?_, ?_, ?_, ?_, ?_, ?_⟩
    · rw [hxpar, hpar']
      exact fun hc => hpaS (Option.some.inj hc ▸ hxS)
    · rw [hxpar, hpar']
      exact fun hc => hpaS (Option.some.inj hc ▸ hyS)
    · intro hbne
      rw [hxpar, hpar']
      rcases hbfacts with hb0 | ⟨b2, hb2, hb2mem, -, -⟩
      · exact absurd hb0 hbne
      · rw [hb2]
        have hb2S : b2 ∈ (ITree.node l x (ITree.node rl y rr)).addrs := by
          simp [ITree.addrs, hb2mem]
        exact fun hc => hpaS (Option.some.inj hc ▸ hb2S)
    · intro _
      rw [hxpar, hpar']
      simp [Tree.validAddr, hpav]
    · intro hc
      rw [hxpar, hpar'] at hc
      exact absurd hc hpan
    · intro _
      rw [hxpar, hpar']
      rcases hSU with h | h
      · left
        rw [← h] at hULrep
        simp only [Tree.repB, Bool.and_eq_true, decide_eq_true_eq] at hULrep
        exact hULrep.1.1.1.1.1
      · right
        rw [← h] at hURrep
        simp only [Tree.repB, Bool.and_eq_true, decide_eq_true_eq] at hURrep
        exact hURrep.1.1.1.1.1
    · intro _
      rw [hxpar, hpar']
      rcases hSU with h | h
      · rw [← h] at hULrep
        simp only [Tree.repB, Bool.and_eq_true, decide_eq_true_eq] at hULrep
        rw [hULrep.1.1.1.1.1]
        exact fun hc => hxy (Option.some.inj hc)
      · cases lU with
        | leaf =>
          have : (t.nodeAt (some pa)).left = t.nilP := by
            simpa [Tree.repB] using hULrep
          rw [this]; exact Ne.symm hyn
        | node l3 c3 r3 =>
          simp only [Tree.repB, Bool.and_eq_true, decide_eq_true_eq] at hULrep
          rw [hULrep.1.1.1.1.1]
          intro hc
          have hc3 : c3 = y := Option.some.inj hc
          have hymem : y ∈ rU.addrs := by rw [← h]; exact hyS
          exact hdisjLR c3 (by simp [ITree.addrs]) (hc3 ▸ hymem)

/-- A subtree whose root record only had its parent pointer redirected,
and whose other nodes are untouched, is represented under the new parent,
with its key sequence unchanged. -/
theorem Tree.rep_reparent (t t' : Tree K V M)
    (hnil : t'.nilP = t.nilP) (hlen : t'.heap.length = t.heap.length) :
    ∀ (W : ITree) (par0 par1 p : Ptr),
      t.repB par0 p W = true → W.addrs.Nodup →
      (p ≠ t.nilP → t'.nodeAt p = { t.nodeAt p with parent := par1 }) →
      (∀ c ∈ W.addrs, (some c : Ptr) ≠ p →
        t'.nodeAt (some c) = t.nodeAt (some c)) →
      t'.repB par1 p W = true ∧ t'.keysOf W = t.keysOf W := by
  intro W par0 par1 p hrep hnd hrootEq hrest
  cases W with
  | leaf =>
    refine ⟨by simpa [Tree.repB, hnil] using hrep, rfl⟩
  | node l2 b2 r2 =>
    simp only [Tree.repB, Bool.and_eq_true, decide_eq_true_eq] at hrep
    obtain ⟨⟨⟨⟨⟨hp2, hb2n⟩, hb2v⟩, -⟩, hl2⟩, hr2⟩ := hrep
    subst hp2
    have hroot := hrootEq hb2n
    simp only [ITree.addrs] at hnd
    rcases List.nodup_append.mp hnd with ⟨-, hndbr, hdisj⟩
    obtain ⟨hb2r2, -⟩ := List.nodup_cons.mp hndbr
    have hb2l2 : b2 ∉ l2.addrs := fun hc => hdisj hc (by simp)
    have hfl2 : ∀ c ∈ l2.addrs, t'.nodeAt (some c) = t.nodeAt (some c) :=
      fun c hc => hrest c (by simp [ITree.addrs, hc])
        (fun hcc => hb2l2 (Option.some.inj hcc ▸ hc))
    have hfr2 : ∀ c ∈ r2.addrs, t'.nodeAt (some c) = t.nodeAt (some c) :=
      fun c hc => hrest c (by simp [ITree.addrs, hc])
        (fun hcc => hb2r2 (Option.some.inj hcc ▸ hc))
    constructor
    · simp only [Tree.repB, Bool.and_eq_true, decide_eq_true_eq]
      refine ⟨⟨⟨⟨⟨by trivial, by rw [hnil]; exact hb2n⟩, by rw [hlen]; exact hb2v⟩,
        by rw [hroot]⟩, ?_⟩, ?_⟩
      · rw [hroot]
        exact Tree.rep_frame t t' hnil hlen l2 (some b2) _ hl2 hfl2
      · rw [hroot]
        exact Tree.rep_frame t t' hnil hlen r2 (some b2) _ hr2 hfr2
    · simp only [Tree.keysOf]
      rw [hroot, Tree.keys_frame t t' l2 (fun c hc => by rw [hfl2 c hc]),
        Tree.keys_frame t t' r2 (fun c hc => by rw [hfr2 c hc])]

/-- Under the heap changes performed by `rotateLeft` at `x` (right child
`y`), the rotated subtree `node (node l x rl) y rr` is represented in the
new heap under the old parent, and its in-order key sequence equals that
of the original subtree `node l x (node rl y rr)`. -/
theorem Tree.rep_rotL_sub (t t' : Tree K V M) (x y : Nat)
    (l rl rr : ITree)
    (hnil : t'.nilP = t.nilP)
    (hlen : t'.heap.length = t.heap.length)
    (hX : t'.nodeAt (some x) =
      { { t.nodeAt (some x) with right := (t.nodeAt (some y)).left }
          with parent := some y })
    (hY : t'.nodeAt (some y) =
      { { t.nodeAt (some y) with left := some x }
          with parent := (t.nodeAt (some x)).parent })
    (hB : (t.nodeAt (some y)).left ≠ t.nilP →
      t'.nodeAt ((t.nodeAt (some y)).left) =
        { t.nodeAt ((t.nodeAt (some y)).left) with parent := some x })
    (hfr : ∀ q : Ptr, q ≠ some x → q ≠ some y →
      (q ≠ (t.nodeAt (some y)).left ∨ (t.nodeAt (some y)).left = t.nilP) →
      (q ≠ (t.nodeAt (some x)).parent ∨ (t.nodeAt (some x)).parent = t.nilP) →
      t'.nodeAt q = t.nodeAt q)
    (par : Ptr)
    (hrepS : t.repB par (some x) (ITree.node l x (ITree.node rl y rr)) = true)
    (hndS : (ITree.node l x (ITree.node rl y rr)).addrs.Nodup)
    (hP : par = t.nilP ∨ ∃ pa : Nat, par = some pa ∧
      pa ∉ (ITree.node l x (ITree.node rl y rr)).addrs) :
    t'.repB par (some y) (ITree.node (ITree.node l x rl) y rr) = true ∧
      t'.keysOf (ITree.node (ITree.node l x rl) y rr) =
        t.keysOf (ITree.node l x (ITree.node rl y rr)) := by
  simp only [Tree.repB, Bool.and_eq_true, decide_eq_true_eq] at hrepS
  obtain ⟨⟨⟨⟨⟨-, hxn⟩, hxv⟩, hxpar⟩, hlrep⟩,
    ⟨⟨⟨⟨hxr, hyn⟩, hyv⟩, hypar⟩, hrlrep⟩, hrrrep⟩ := hrepS
  simp only [ITree.addrs] at hndS
  rcases List.nodup_append.mp hndS with ⟨-, hndR0, hdisjL⟩
  obtain ⟨hxnotin, hndR1⟩ := List.nodup_cons.mp hndR0
  rcases List.nodup_append.mp hndR1 with ⟨hndrl, hndR2, hdisjRL⟩
  obtain ⟨hynotrr, -⟩ := List.nodup_cons.mp hndR2
  have hxy : x ≠ y := fun hc => hxnotin (by simp [hc])
  have hxrl : x ∉ rl.addrs := fun hc => hxnotin (by simp [hc])
  have hxrr : x ∉ rr.addrs := fun hc => hxnotin (by simp [hc])
  have hyrl : y ∉ rl.addrs := fun hc => hdisjRL hc (by simp)
  have hbfacts : (t.nodeAt (some y)).left = t.nilP ∨
      ∃ b2 : Nat, (t.nodeAt (some y)).left = some b2 ∧ b2 ∈ rl.addrs := by
    cases rl with
    | leaf => exact Or.inl (by simpa [Tree.repB] using hrlrep)
    | node l2 b2 r2 =>
      simp only [Tree.repB, Bool.and_eq_true, decide_eq_true_eq] at hrlrep
      exact Or.inr ⟨b2, hrlrep.1.1.1.1.1, by simp [ITree.addrs]⟩
  have hPc : ∀ c : Nat,
      c ∈ (ITree.node l x (ITree.node rl y rr)).addrs →
      ((some c : Ptr) ≠ (t.nodeAt (some x)).parent ∨
        (t.nodeAt (some x)).parent = t.nilP) := by
    intro c hc
    rw [hxpar]
    rcases hP with h | ⟨pa, hpa, hpaS⟩
    · exact Or.inr h
    · refine Or.inl ?_
      rw [hpa]
      exact fun hcc => hpaS (Option.some.inj hcc ▸ hc)
  have hBc : ∀ c : Nat, c ∉ rl.addrs →
      ((some c : Ptr) ≠ (t.nodeAt (some y)).left ∨
        (t.nodeAt (some y)).left = t.nilP) := by
    intro c hc
    rcases hbfacts with hb0 | ⟨b2, hb2, hb2mem⟩
    · exact Or.inr hb0
    · refine Or.inl ?_
      rw [hb2]
      exact fun hcc => hc (Option.some.inj hcc ▸ hb2mem)
  have hEq : ∀ c : Nat, c ≠ x → c ≠ y → c ∉ rl.addrs →
      c ∈ (ITree.node l x (ITree.node rl y rr)).addrs →
      t'.nodeAt (some c) = t.nodeAt (some c) := fun c h1 h2 h3 hc =>
    hfr (some c) (fun hcc => h1 (Option.some.inj hcc))
      (fun hcc => h2 (Option.some.inj hcc)) (hBc c h3) (hPc c hc)
  have hfrL : ∀ c ∈ l.addrs, t'.nodeAt (some c) = t.nodeAt (some c) := by
    intro c hc
    exact hEq c (fun hcx => hdisjL hc (by simp [hcx]))
      (fun hcy => hdisjL hc (by simp [hcy]))
      (fun hc' => hdisjL hc (by simp [hc']))
      (by simp [ITree.addrs, hc])
  have hfrRr : ∀ c ∈ rr.addrs, t'.nodeAt (some c) = t.nodeAt (some c) := by
    intro c hc
    exact hEq c (fun hcx => hxrr (hcx ▸ hc)) (fun hcy => hynotrr (hcy ▸ hc))
      (fun hc' => hdisjRL hc' (by simp [hc]))
      (by simp [ITree.addrs, hc])
  have hrlrw := Tree.rep_reparent t t' hnil hlen rl (some y) (some x)
    ((t.nodeAt (some y)).left) hrlrep hndrl hB
    (fun c hc hcB => hfr (some c)
      (fun hcc => hxrl (Option.some.inj hcc ▸ hc))
      (fun hcc => hyrl (Option.some.inj hcc ▸ hc))
      (Or.inl hcB)
      (hPc c (by simp [ITree.addrs, hc])))
  constructor
  · simp only [Tree.repB, Bool.and_eq_true, decide_eq_true_eq]
    refine ⟨⟨⟨⟨⟨by trivial, by rw [hnil]; exact hyn⟩,
      by rw [hlen]; exact hyv⟩, by rw [hY]; exact hxpar⟩,
      ⟨⟨⟨⟨⟨by rw [hY], by rw [hnil]; exact hxn⟩, by rw [hlen]; exact hxv⟩,
        by rw [hX]⟩, ?_⟩, ?_⟩⟩, ?_⟩
    · rw [hX]
      exact Tree.rep_frame t t' hnil hlen l (some x) _ hlrep hfrL
    · rw [hX]
      exact hrlrw.1
    · rw [hY]
      exact Tree.rep_frame t t' hnil hlen rr (some y) _ hrrrep hfrRr
  · simp only [Tree.keysOf]
    rw [Tree.keys_frame t t' l (fun c hc => by rw [hfrL c hc]),
      Tree.keys_frame t t' rr (fun c hc => by rw [hfrRr c hc]),
      hrlrw.2, hX, hY]
    simp [List.append_assoc]

/-- Under the heap changes performed by `rotateLeft` at `x` (right child
`y`), any represented tree containing the subtree `node l x (node rl y rr)`
is rewritten into the same tree with that subtree replaced by
`node (node l x rl) y rr`, with the overall in-order key sequence
unchanged. -/
theorem Tree.rep_rotL_replace (t t' : Tree K V M) (x y : Nat)
    (l rl rr : ITree)
    (hnil : t'.nilP = t.nilP)
    (hlen : t'.heap.length = t.heap.length)
    (hX : t'.nodeAt (some x) =
      { { t.nodeAt (some x) with right := (t.nodeAt (some y)).left }
          with parent := some y })
    (hY : t'.nodeAt (some y) =
      { { t.nodeAt (some y) with left := some x }
          with parent := (t.nodeAt (some x)).parent })
    (hB : (t.nodeAt (some y)).left ≠ t.nilP →
      t'.nodeAt ((t.nodeAt (some y)).left) =
        { t.nodeAt ((t.nodeAt (some y)).left) with parent := some x })
    (hPF : (t.nodeAt (some x)).parent ≠ t.nilP →
      t'.nodeAt ((t.nodeAt (some x)).parent) =
        (if (t.nodeAt ((t.nodeAt (some x)).parent)).left = some x then
          { t.nodeAt ((t.nodeAt (some x)).parent) with left := some y }
         else
          { t.nodeAt ((t.nodeAt (some x)).parent) with right := some y }))
    (hfr : ∀ q : Ptr, q ≠ some x → q ≠ some y →
      (q ≠ (t.nodeAt (some y)).left ∨ (t.nodeAt (some y)).left = t.nilP) →
      (q ≠ (t.nodeAt (some x)).parent ∨ (t.nodeAt (some x)).parent = t.nilP) →
      t'.nodeAt q = t.nodeAt q) :
    ∀ (T : ITree) (par p : Ptr),
      t.repB par p T = true → T.addrs.Nodup →
      (ITree.node l x (ITree.node rl y rr)).subB T = true →
      (par = t.nilP ∨ ∃ pa : Nat, par = some pa ∧
        pa ∉ (ITree.node l x (ITree.node rl y rr)).addrs) →
      t'.repB par
          (if T = ITree.node l x (ITree.node rl y rr) then some y else p)
          (T.replaceAt x (ITree.node (ITree.node l x rl) y rr)) = true ∧
        t'.keysOf (T.replaceAt x (ITree.node (ITree.node l x rl) y rr)) =
          t.keysOf T := by
  intro T
  induction T with
  | leaf =>
    intro par p _ _ hsub _
    simp [ITree.subB] at hsub
  | node l' a' r' ihl ihr =>
    intro par p hrep hnd hsub hP
    have hrep0 := hrep
    have hnd0 := hnd
    simp only [Tree.repB, Bool.and_eq_true, decide_eq_true_eq] at hrep
    obtain ⟨⟨⟨⟨⟨hp, hnn⟩, hv0⟩, hpar0⟩, hl⟩, hr⟩ := hrep
    simp only [ITree.addrs] at hnd
    rcases List.nodup_append.mp hnd with ⟨hndl', hndar, hdisj⟩
    obtain ⟨harr, hndr'⟩ := List.nodup_cons.mp hndar
    have hall : a' ∉ l'.addrs := fun hc => hdisj hc (by simp)
    simp only [ITree.subB, Bool.or_eq_true, decide_eq_true_eq] at hsub
    rcases hsub with (heq | hsubl) | hsubr
    · cases heq
      rw [if_pos rfl]
      have hra : (ITree.node l x (ITree.node rl y rr)).replaceAt x
          (ITree.node (ITree.node l x rl) y rr) =
          ITree.node (ITree.node l x rl) y rr := by
        simp [ITree.replaceAt]
      rw [hra]
      exact Tree.rep_rotL_sub t t' x y l rl rr hnil hlen hX hY hB hfr par
        (hp ▸ hrep0) hnd0 hP
    · have hSl' := ITree.subB_addrs hsubl
      have hxinl : x ∈ l'.addrs := hSl' x (by simp [ITree.addrs])
      have hyinl : y ∈ l'.addrs := hSl' y (by simp [ITree.addrs])
      have hax : a' ≠ x := fun hc => hall (hc ▸ hxinl)
      have hTne : ITree.node l' a' r' ≠
          ITree.node l x (ITree.node rl y rr) := by
        intro hc
        injection hc with h1 h2 h3
        exact hax h2
      rw [if_neg hTne]
      have hxr' : x ∉ r'.addrs := fun hc => hdisj hxinl (by simp [hc])
      have hra : (ITree.node l' a' r').replaceAt x
          (ITree.node (ITree.node l x rl) y rr) =
          ITree.node (l'.replaceAt x (ITree.node (ITree.node l x rl) y rr))
            a' (r'.replaceAt x (ITree.node (ITree.node l x rl) y rr)) := by
        simp [ITree.replaceAt, hax]
      rw [hra, ITree.replaceAt_of_not_mem hxr']
      obtain ⟨spar, hrepS2, -⟩ :=
        t.rep_sub l (ITree.node rl y rr) x l' (some a') _ hl hsubl
      have hS2 := hrepS2
      simp only [Tree.repB, Bool.and_eq_true, decide_eq_true_eq] at hS2
      obtain ⟨⟨⟨⟨⟨-, hxnS⟩, -⟩, hxparS⟩, -⟩,
        ⟨⟨⟨⟨-, -⟩, -⟩, -⟩, hrlrep2⟩, -⟩ := hS2
      have hbfacts : (t.nodeAt (some y)).left = t.nilP ∨
          ∃ b2 : Nat, (t.nodeAt (some y)).left = some b2 ∧
            b2 ∈ l'.addrs := by
        cases rl with
        | leaf => exact Or.inl (by simpa [Tree.repB] using hrlrep2)
        | node l2 b2 r2 =>
          simp only [Tree.repB, Bool.and_eq_true, decide_eq_true_eq]
            at hrlrep2
          exact Or.inr ⟨b2, hrlrep2.1.1.1.1.1,
            hSl' b2 (by simp [ITree.addrs])⟩
      have hBc : ∀ c : Nat, c ∉ l'.addrs →
          ((some c : Ptr) ≠ (t.nodeAt (some y)).left ∨
            (t.nodeAt (some y)).left = t.nilP) := by
        intro c hc
        rcases hbfacts with hb0 | ⟨b2, hb2, hb2mem⟩
        · exact Or.inr hb0
        · refine Or.inl ?_
          rw [hb2]
          exact fun hcc => hc (Option.some.inj hcc ▸ hb2mem)
      have hPl' : (t.nodeAt (some x)).parent = some a' ∨
          ∃ pa : Nat, (t.nodeAt (some x)).parent = some pa ∧
            pa ∈ l'.addrs := by
        by_cases hlS : l' = ITree.node l x (ITree.node rl y rr)
        · left
          rw [hlS] at hl
          simp only [Tree.repB, Bool.and_eq_true, decide_eq_true_eq] at hl
          exact hl.1.1.2
        · exact Or.inr (t.rep_sub_parent_mem l (ITree.node rl y rr) x
            l' (some a') _ hl hsubl hlS)
      have hPcOut : ∀ c : Nat, c ∉ l'.addrs → c ≠ a' →
          ((some c : Ptr) ≠ (t.nodeAt (some x)).parent ∨
            (t.nodeAt (some x)).parent = t.nilP) := by
        intro c hc hca
        rcases hPl' with h | ⟨pa, hpa, hpamem⟩
        · refine Or.inl ?_
          rw [h]
          exact fun hcc => hca (Option.some.inj hcc)
        · refine Or.inl ?_
          rw [hpa]
          exact fun hcc => hc (Option.some.inj hcc ▸ hpamem)
      have hfrmR : ∀ c ∈ r'.addrs,
          t'.nodeAt (some c) = t.nodeAt (some c) := by
        intro c hc
        have hcl' : c ∉ l'.addrs := fun hc' => hdisj hc' (by simp [hc])
        have hca : c ≠ a' := fun hcc => harr (hcc ▸ hc)
        exact hfr (some c)
          (fun hcc => hcl' (Option.some.inj hcc ▸ hxinl))
          (fun hcc => hcl' (Option.some.inj hcc ▸ hyinl))
          (hBc c hcl') (hPcOut c hcl' hca)
      have hrepR := Tree.rep_frame t t' hnil hlen r' (some a') _ hr hfrmR
      have hkeysR := Tree.keys_frame t t' r'
        (fun c hc => by rw [hfrmR c hc])
      by_cases hlS : l' = ITree.node l x (ITree.node rl y rr)
      · have hl2 := hl
        rw [hlS] at hl2
        have hlp : (t.nodeAt (some a')).left = some x := by
          have hl3 := hl2
          simp only [Tree.repB, Bool.and_eq_true, decide_eq_true_eq] at hl3
          exact hl3.1.1.1.1.1
        rw [hlp] at hl2
        have hndS : (ITree.node l x (ITree.node rl y rr)).addrs.Nodup := by
          rw [← hlS]; exact hndl'
        have hsubMain := Tree.rep_rotL_sub t t' x y l rl rr hnil hlen hX hY
          hB hfr (some a') hl2 hndS
          (Or.inr ⟨a', rfl, fun hc => hall (hSl' _ hc)⟩)
        have hxpar2 : (t.nodeAt (some x)).parent = some a' := by
          have hl3 := hl2
          simp only [Tree.repB, Bool.and_eq_true, decide_eq_true_eq] at hl3
          exact hl3.1.1.2
        have hPne : (t.nodeAt (some x)).parent ≠ t.nilP := by
          rw [hxpar2]; exact hnn
        have hPrec := hPF hPne
        rw [hxpar2, if_pos hlp] at hPrec
        have hraS : (ITree.node l x (ITree.node rl y rr)).replaceAt x
            (ITree.node (ITree.node l x rl) y rr) =
            ITree.node (ITree.node l x rl) y rr := by
          simp [ITree.replaceAt]
        rw [hlS, hraS]
        constructor
        · show (decide (p = some a') && decide ((some a' : Ptr) ≠ t'.nilP) &&
            decide (a' < t'.heap.length) &&
            decide ((t'.nodeAt (some a')).parent = par) &&
            t'.repB (some a') (t'.nodeAt (some a')).left
              (ITree.node (ITree.node l x rl) y rr) &&
            t'.repB (some a') (t'.nodeAt (some a')).right r') = true
          simp only [Bool.and_eq_true, decide_eq_true_eq]
          refine ⟨⟨⟨⟨⟨hp, by rw [hnil]; exact hnn⟩,
            by rw [hlen]; exact hv0⟩,
            by rw [hPrec]; exact hpar0⟩, ?_⟩, ?_⟩
          · rw [hPrec]
            exact hsubMain.1
          · rw [hPrec]
            exact hrepR
        · show t'.keysOf (ITree.node (ITree.node l x rl) y rr) ++
              (t'.nodeAt (some a')).key :: t'.keysOf r' =
            t.keysOf (ITree.node l x (ITree.node rl y rr)) ++
              (t.nodeAt (some a')).key :: t.keysOf r'
          rw [hsubMain.2, hPrec, hkeysR]
      · have hchild := ihl (some a') _ hl hndl' hsubl
          (Or.inr ⟨a', rfl, fun hc => hall (hSl' _ hc)⟩)
        rw [if_neg hlS] at hchild
        obtain ⟨pa, hpa, hpamem⟩ := t.rep_sub_parent_mem l
          (ITree.node rl y rr) x l' (some a') _ hl hsubl hlS
        have hPcIn : ∀ c : Nat, c ∉ l'.addrs →
            ((some c : Ptr) ≠ (t.nodeAt (some x)).parent ∨
              (t.nodeAt (some x)).parent = t.nilP) := by
          intro c hc
          refine Or.inl ?_
          rw [hpa]
          exact fun hcc => hc (Option.some.inj hcc ▸ hpamem)
        have hfra' : t'.nodeAt (some a') = t.nodeAt (some a') :=
          hfr (some a')
            (fun hcc => hall (Option.some.inj hcc ▸ hxinl))
            (fun hcc => hall (Option.some.inj hcc ▸ hyinl))
            (hBc a' hall) (hPcIn a' hall)
        constructor
        · simp only [Tree.repB, Bool.and_eq_true, decide_eq_true_eq]
          refine ⟨⟨⟨⟨⟨hp, by rw [hnil]; exact hnn⟩,
            by rw [hlen]; exact hv0⟩,
            by rw [hfra']; exact hpar0⟩, ?_⟩, ?_⟩
          · rw [hfra']
            exact hchild.1
          · rw [hfra']
            exact hrepR
        · show t'.keysOf (l'.replaceAt x
              (ITree.node (ITree.node l x rl) y rr)) ++
              (t'.nodeAt (some a')).key :: t'.keysOf r' =
            t.keysOf l' ++ (t.nodeAt (some a')).key :: t.keysOf r'
          rw [hchild.2, hfra', hkeysR]
    · have hSr' := ITree.subB_addrs hsubr
      have hxinr : x ∈ r'.addrs := hSr' x (by simp [ITree.addrs])
      have hyinr : y ∈ r'.addrs := hSr' y (by simp [ITree.addrs])
      have hax : a' ≠ x := fun hc => harr (hc ▸ hxinr)
      have hTne : ITree.node l' a' r' ≠
          ITree.node l x (ITree.node rl y rr) := by
        intro hc
        injection hc with h1 h2 h3
        exact hax h2
      rw [if_neg hTne]
      have hxl' : x ∉ l'.addrs := fun hc => hdisj hc (by simp [hxinr])
      have hra : (ITree.node l' a' r').replaceAt x
          (ITree.node (ITree.node l x rl) y rr) =
          ITree.node (l'.replaceAt x (ITree.node (ITree.node l x rl) y rr))
            a' (r'.replaceAt x (ITree.node (ITree.node l x rl) y rr)) := by
        simp [ITree.replaceAt, hax]
      rw [hra, ITree.replaceAt_of_not_mem hxl']
      obtain ⟨spar, hrepS2, -⟩ :=
        t.rep_sub l (ITree.node rl y rr) x r' (some a') _ hr hsubr
      have hS2 := hrepS2
      simp only [Tree.repB, Bool.and_eq_true, decide_eq_true_eq] at hS2
      obtain ⟨⟨⟨⟨⟨-, hxnS⟩, -⟩, hxparS⟩, -⟩,
        ⟨⟨⟨⟨-, -⟩, -⟩, -⟩, hrlrep2⟩, -⟩ := hS2
      have hbfacts : (t.nodeAt (some y)).left = t.nilP ∨
          ∃ b2 : Nat, (t.nodeAt (some y)).left = some b2 ∧
            b2 ∈ r'.addrs := by
        cases rl with
        | leaf => exact Or.inl (by simpa [Tree.repB] using hrlrep2)
        | node l2 b2 r2 =>
          simp only [Tree.repB, Bool.and_eq_true, decide_eq_true_eq]
            at hrlrep2
          exact Or.inr ⟨b2, hrlrep2.1.1.1.1.1,
            hSr' b2 (by simp [ITree.addrs])⟩
      have hBc : ∀ c : Nat, c ∉ r'.addrs →
          ((some c : Ptr) ≠ (t.nodeAt (some y)).left ∨
            (t.nodeAt (some y)).left = t.nilP) := by
        intro c hc
        rcases hbfacts with hb0 | ⟨b2, hb2, hb2mem⟩
        · exact Or.inr hb0
        · refine Or.inl ?_
          rw [hb2]
          exact fun hcc => hc (Option.some.inj hcc ▸ hb2mem)
      have hPr' : (t.nodeAt (some x)).parent = some a' ∨
          ∃ pa : Nat, (t.nodeAt (some x)).parent = some pa ∧
            pa ∈ r'.addrs := by
        by_cases hrS : r' = ITree.node l x (ITree.node rl y rr)
        · left
          rw [hrS] at hr
          simp only [Tree.repB, Bool.and_eq_true, decide_eq_true_eq] at hr
          exact hr.1.1.2
        · exact Or.inr (t.rep_sub_parent_mem l (ITree.node rl y rr) x
            r' (some a') _ hr hsubr hrS)
      have hPcOut : ∀ c : Nat, c ∉ r'.addrs → c ≠ a' →
          ((some c : Ptr) ≠ (t.nodeAt (some x)).parent ∨
            (t.nodeAt (some x)).parent = t.nilP) := by
        intro c hc hca
        rcases hPr' with h | ⟨pa, hpa, hpamem⟩
        · refine Or.inl ?_
          rw [h]
          exact fun hcc => hca (Option.some.inj hcc)
        · refine Or.inl ?_
          rw [hpa]
          exact fun hcc => hc (Option.some.inj hcc ▸ hpamem)
      have hay : a' ≠ y := fun hc => harr (hc ▸ hyinr)
      have hfrmL : ∀ c ∈ l'.addrs,
          t'.nodeAt (some c) = t.nodeAt (some c) := by
        intro c hc
        have hcr' : c ∉ r'.addrs := fun hc' => hdisj hc (by simp [hc'])
        have hca : c ≠ a' := fun hcc => hall (hcc ▸ hc)
        exact hfr (some c)
          (fun hcc => hcr' (Option.some.inj hcc ▸ hxinr))
          (fun hcc => hcr' (Option.some.inj hcc ▸ hyinr))
          (hBc c hcr') (hPcOut c hcr' hca)
      have hrepL := Tree.rep_frame t t' hnil hlen l' (some a') _ hl hfrmL
      have hkeysL := Tree.keys_frame t t' l'
        (fun c hc => by rw [hfrmL c hc])
      have hnotleft : (t.nodeAt (some a')).left ≠ some x := by
        cases l' with
        | leaf =>
          have h0 : (t.nodeAt (some a')).left = t.nilP := by
            simpa [Tree.repB] using hl
          rw [h0]
          exact Ne.symm hxnS
        | node l3 c3 r3 =>
          have hl3 := hl
          simp only [Tree.repB, Bool.and_eq_true, decide_eq_true_eq] at hl3
          rw [hl3.1.1.1.1.1]
          intro hcc
          have hc3 : c3 = x := Option.some.inj hcc
          have hc3mem : c3 ∈ (ITree.node l3 c3 r3).addrs := by
            simp [ITree.addrs]
          exact hdisj hc3mem (by rw [hc3]; simp [hxinr])
      by_cases hrS : r' = ITree.node l x (ITree.node rl y rr)
      · have hr2 := hr
        rw [hrS] at hr2
        have hrp : (t.nodeAt (some a')).right = some x := by
          have hr3 := hr2
          simp only [Tree.repB, Bool.and_eq_true, decide_eq_true_eq] at hr3
          exact hr3.1.1.1.1.1
        rw [hrp] at hr2
        have hndS : (ITree.node l x (ITree.node rl y rr)).addrs.Nodup := by
          rw [← hrS]; exact hndr'
        have hsubMain := Tree.rep_rotL_sub t t' x y l rl rr hnil hlen hX hY
          hB hfr (some a') hr2 hndS
          (Or.inr ⟨a', rfl, fun hc => harr (hSr' _ hc)⟩)
        have hxpar2 : (t.nodeAt (some x)).parent = some a' := by
          have hr3 := hr2
          simp only [Tree.repB, Bool.and_eq_true, decide_eq_true_eq] at hr3
          exact hr3.1.1.2
        have hPne : (t.nodeAt (some x)).parent ≠ t.nilP := by
          rw [hxpar2]; exact hnn
        have hPrec := hPF hPne
        rw [hxpar2, if_neg hnotleft] at hPrec
        have hraS : (ITree.node l x (ITree.node rl y rr)).replaceAt x
            (ITree.node (ITree.node l x rl) y rr) =
            ITree.node (ITree.node l x rl) y rr := by
          simp [ITree.replaceAt]
        rw [hrS, hraS]
        constructor
        · show (decide (p = some a') && decide ((some a' : Ptr) ≠ t'.nilP) &&
            decide (a' < t'.heap.length) &&
            decide ((t'.nodeAt (some a')).parent = par) &&
            t'.repB (some a') (t'.nodeAt (some a')).left l' &&
            t'.repB (some a') (t'.nodeAt (some a')).right
              (ITree.node (ITree.node l x rl) y rr)) = true
          simp only [Bool.and_eq_true, decide_eq_true_eq]
          refine ⟨⟨⟨⟨⟨hp, by rw [hnil]; exact hnn⟩,
            by rw [hlen]; exact hv0⟩,
            by rw [hPrec]; exact hpar0⟩, ?_⟩, ?_⟩
          · rw [hPrec]
            exact hrepL
          · rw [hPrec]
            exact hsubMain.1
        · show t'.keysOf l' ++ (t'.nodeAt (some a')).key ::
              t'.keysOf (ITree.node (ITree.node l x rl) y rr) =
            t.keysOf l' ++ (t.nodeAt (some a')).key ::
              t.keysOf (ITree.node l x (ITree.node rl y rr))
          rw [hsubMain.2, hPrec, hkeysL]
      · have hchild := ihr (some a') _ hr hndr' hsubr
          (Or.inr ⟨a', rfl, fun hc => harr (hSr' _ hc)⟩)
        rw [if_neg hrS] at hchild
        obtain ⟨pa, hpa, hpamem⟩ := t.rep_sub_parent_mem l
          (ITree.node rl y rr) x r' (some a') _ hr hsubr hrS
        have hPcIn : ∀ c : Nat, c ∉ r'.addrs →
            ((some c : Ptr) ≠ (t.nodeAt (some x)).parent ∨
              (t.nodeAt (some x)).parent = t.nilP) := by
          intro c hc
          refine Or.inl ?_
          rw [hpa]
          exact fun hcc => hc (Option.some.inj hcc ▸ hpamem)
        have hfra' : t'.nodeAt (some a') = t.nodeAt (some a') :=
          hfr (some a')
            (fun hcc => harr (Option.some.inj hcc ▸ hxinr))
            (fun hcc => harr (Option.some.inj hcc ▸ hyinr))
            (hBc a' harr) (hPcIn a' harr)
        constructor
        · simp only [Tree.repB, Bool.and_eq_true, decide_eq_true_eq]
          refine ⟨⟨⟨⟨⟨hp, by rw [hnil]; exact hnn⟩,
            by rw [hlen]; exact hv0⟩,
            by rw [hfra']; exact hpar0⟩, ?_⟩, ?_⟩
          · rw [hfra']
            exact hrepL
          · rw [hfra']
            exact hchild.1
        · show t'.keysOf l' ++ (t'.nodeAt (some a')).key ::
              t'.keysOf (r'.replaceAt x
                (ITree.node (ITree.node l x rl) y rr)) =
            t.keysOf l' ++ (t.nodeAt (some a')).key :: t.keysOf r'
          rw [hchild.2, hfra', hkeysL]

/-- C5: for every node `x` of a represented, address-distinct BST whose
right child is a real node `y`, RotateLeft(x) preserves the in-order key
sequence of the tree exactly — the rotated heap represents the same tree
with the subtree `node l x (node rl y rr)` replaced by
`node (node l x rl) y rr`, and the in-order key sequence read from the new
heap equals the original one — and `y` is `x`'s new parent, and
RotateRight applied to that new parent restores the tree to exactly the
state it had before the rotation. -/
theorem c5_rotateLeft_preserves_inorder_and_inverts
    (t : Tree K V M) (T l rl rr : ITree) (x y : Nat)
    (hrep : t.repB t.nilP t.root T = true)
    (hnd : T.addrs.Nodup)
    (hsub : (ITree.node l x (ITree.node rl y rr)).subB T = true) :
    ((t.rotateLeft (some x)).repB (t.rotateLeft (some x)).nilP
        (t.rotateLeft (some x)).root
        (T.replaceAt x (ITree.node (ITree.node l x rl) y rr)) = true ∧
      (t.rotateLeft (some x)).keysOf
          (T.replaceAt x (ITree.node (ITree.node l x rl) y rr)) =
        t.keysOf T) ∧
    ((t.rotateLeft (some x)).nodeAt (some x)).parent = some y ∧
    (t.rotateLeft (some x)).rotateRight (some y) = t := by
  have hctx := t.rep_rotLCtx T l rl rr x y hrep hnd hsub
  obtain ⟨Fnil, Fless, Flen, Froot, Fx, Fy, Fb, Fp, Ffr⟩ :=
    t.rotateLeft_spec x y hctx
  have hmain := Tree.rep_rotL_replace t (t.rotateLeft (some x)) x y l rl rr
    Fnil Flen Fx Fy Fb Fp Ffr T t.nilP t.root hrep hnd hsub (Or.inl rfl)
  have hiff : T = ITree.node l x (ITree.node rl y rr) ↔
      (t.nodeAt (some x)).parent = t.nilP := by
    constructor
    · intro hTeq
      have h0 := hrep
      rw [hTeq] at h0
      simp only [Tree.repB, Bool.and_eq_true, decide_eq_true_eq] at h0
      exact h0.1.1.2
    · intro hPnil
      by_contra hne
      obtain ⟨pa, hpa, hpamem⟩ := t.rep_sub_parent_mem l
        (ITree.node rl y rr) x T t.nilP t.root hrep hsub hne
      rw [hpa] at hPnil
      exact (t.rep_mem_valid T _ _ hrep pa hpamem).2 hPnil
  have hroot : (t.rotateLeft (some x)).root =
      (if T = ITree.node l x (ITree.node rl y rr) then some y
       else t.root) := by
    rw [Froot]
    by_cases hc : T = ITree.node l x (ITree.node rl y rr)
    · rw [if_pos hc, if_pos (hiff.mp hc)]
    · rw [if_neg hc, if_neg (fun hp => hc (hiff.mpr hp))]
  refine ⟨⟨?_, hmain.2⟩, ?_, ?_⟩
  · rw [Fnil, hroot]
    exact hmain.1
  · rw [Fx]
  · exact t.rotateLeft_rotateRight_inverse x y hctx

/-- A two-node BST over `Int` keys: the sentinel at address 0, root key 1
at address 1, and its real right child key 2 at address 2. -/
def rotEx : Tree Int Int Unit :=
  { root := some 1
    less := lessInt
    heap := [{ key := 0, value := 0, parent := some 0, left := none,
               right := none, metadata := () },
             { key := 1, value := 10, parent := some 0, left := some 0,
               right := some 2, metadata := () },
             { key := 2, value := 20, parent := some 1, left := some 0,
               right := some 0, metadata := () }]
    nilP := some 0 }

/-- Witness for C5 at a concrete input: the two-node tree `rotEx` with
`x = 1`, `y = 2` satisfies the hypotheses, and the claim theorem applies. -/
theorem c5_rotation_witness :
    rotEx.repB rotEx.nilP rotEx.root
        (ITree.node ITree.leaf 1 (ITree.node ITree.leaf 2 ITree.leaf)) =
      true ∧
    (ITree.node ITree.leaf 1
      (ITree.node ITree.leaf 2 ITree.leaf)).addrs.Nodup ∧
    (ITree.node ITree.leaf 1 (ITree.node ITree.leaf 2 ITree.leaf)).subB
        (ITree.node ITree.leaf 1 (ITree.node ITree.leaf 2 ITree.leaf)) =
      true ∧
    (((rotEx.rotateLeft (some 1)).repB (rotEx.rotateLeft (some 1)).nilP
        (rotEx.rotateLeft (some 1)).root
        ((ITree.node ITree.leaf 1
          (ITree.node ITree.leaf 2 ITree.leaf)).replaceAt 1
          (ITree.node (ITree.node ITree.leaf 1 ITree.leaf) 2
            ITree.leaf)) = true ∧
      (rotEx.rotateLeft (some 1)).keysOf
          ((ITree.node ITree.leaf 1
            (ITree.node ITree.leaf 2 ITree.leaf)).replaceAt 1
            (ITree.node (ITree.node ITree.leaf 1 ITree.leaf) 2
              ITree.leaf)) =
        rotEx.keysOf (ITree.node ITree.leaf 1
          (ITree.node ITree.leaf 2 ITree.leaf))) ∧
    ((rotEx.rotateLeft (some 1)).nodeAt (some 1)).parent = some 2 ∧
    (rotEx.rotateLeft (some 1)).rotateRight (some 2) = rotEx) :=
  ⟨by decide, by decide, by decide,
    c5_rotateLeft_preserves_inorder_and_inverts rotEx
      (ITree.node ITree.leaf 1 (ITree.node ITree.leaf 2 ITree.leaf))
      ITree.leaf ITree.leaf ITree.leaf 1 2
      (by decide) (by decide) (by decide)⟩

end Rotation

end GoTrees
